import Mathlib

/-!
# Verification of the ATEC medical quotation engine

Shallow embedding of the matching/ranking/quotation engine of the
`atecmedicaltool` repository, together with proofs of the frozen claims.

Sources embedded here:
* `src/App.tsx` — normalizer, Levenshtein, scorer (`calculateMatchScore`),
  ranking inside `handleSearch`, quotation state (`quotationState`,
  `handleQuantityChange`, `grandTotal`, CSV status classification);
* `src/unnamed/part_001` — the earlier variant of the same engine
  (its own thesaurus, Levenshtein and stricter `calculateMatchScore`),
  embedded with a `V1` suffix;
* `src/services/geminiService.ts` — `extractShoppingItems` fallback path.

Modelling conventions:
* Strings are `List Char` (`Str`).  JavaScript string primitives
  (`split`, `trim`, `includes`, `startsWith`) are embedded as the
  corresponding list functions with JS edge-case semantics (empty pieces,
  falsy checks) preserved.
* JS numbers carrying scores are embedded in `ℤ`.  The `App.tsx` scorer
  uses the fractional match qualities 1.0 / 0.9 / `1.0 - dist*0.2`; every
  quantity in that scorer is a multiple of a tenth, so its scores are
  represented in tenths (each source constant is multiplied by 10:
  quality 1.0 ↦ 10, 0.9 ↦ 9, bonus 6000 ↦ 60000, …).  This rescaling is
  order- and sign-preserving, and the weight *thresholds* (`> 1000`,
  `> 100`), which are compared against unscaled weights, are kept as in
  the source.  The `part_001` scorer is integer-valued in the source and
  is embedded with its constants verbatim.
* Prices are embedded as integers (minor currency units); no claim
  depends on fractional prices.
-/

namespace Atec

abbrev Str := List Char

/-! ## Text normalizer (`normalizeText`, App.tsx lines 60–67 = part_001 lines 23–30)

`text.toLowerCase().normalize("NFD").replace(/[̀-ͯ]/g, "")
     .replace(/[^a-z0-9]/g, " ").replace(/\s+/g, " ").trim()`
-/

/-- The character class of the regex `[a-z0-9]`. -/
def isKeptChar (c : Char) : Bool :=
  (97 ≤ c.toNat && c.toNat ≤ 122) || (48 ≤ c.toNat && c.toNat ≤ 57)

/-- Association-list lookup (used for the character tables and the thesauri). -/
def lookupA {α β : Type} [DecidableEq α] (k : α) : List (α × β) → Option β
  | [] => none
  | (k', v) :: rest => if k' = k then some v else lookupA k rest

theorem lookupA_mem {α β : Type} [DecidableEq α] {k : α} {v : β} :
    ∀ {l : List (α × β)}, lookupA k l = some v → (k, v) ∈ l := by
  intro l
  induction l with
  | nil => intro h; simp [lookupA] at h
  | cons e rest ih =>
    intro h
    obtain ⟨k', v'⟩ := e
    by_cases hk : k' = k
    · subst hk
      simp [lookupA] at h
      simp [h]
    · simp [lookupA, hk] at h
      exact List.mem_cons_of_mem _ (ih h)

/-- Uppercase→lowercase table for the accented Latin letters occurring in the
repository's vocabulary; `String.prototype.toLowerCase` maps each of these to
its lowercase form.  Characters outside ASCII `A`–`Z` and this table are left
unchanged (they are replaced by a space later in the pipeline anyway). -/
def accentLowerTable : List (Char × Char) :=
  [('À', 'à'), ('Á', 'á'), ('Â', 'â'), ('Ã', 'ã'), ('Ç', 'ç'), ('É', 'é'),
   ('Ê', 'ê'), ('Í', 'í'), ('Ó', 'ó'), ('Ô', 'ô'), ('Õ', 'õ'), ('Ú', 'ú'),
   ('Ü', 'ü')]

/-- JS `toLowerCase` on one character. -/
def jsToLower (c : Char) : Char :=
  if 65 ≤ c.toNat && c.toNat ≤ 90 then Char.ofNat (c.toNat + 32)
  else
    match lookupA c accentLowerTable with
    | some l => l
    | none => c

/-- Unicode NFD decomposition table for the accented lowercase Latin letters of
the repository's vocabulary (base letter followed by a combining mark in
U+0300–U+036F).  All other characters decompose to themselves. -/
def nfdTable : List (Char × List Char) :=
  [('à', ['a', Char.ofNat 768]), ('á', ['a', Char.ofNat 769]),
   ('â', ['a', Char.ofNat 770]), ('ã', ['a', Char.ofNat 771]),
   ('ç', ['c', Char.ofNat 807]), ('é', ['e', Char.ofNat 769]),
   ('ê', ['e', Char.ofNat 770]), ('í', ['i', Char.ofNat 769]),
   ('ó', ['o', Char.ofNat 769]), ('ô', ['o', Char.ofNat 770]),
   ('õ', ['o', Char.ofNat 771]), ('ú', ['u', Char.ofNat 769]),
   ('ü', ['u', Char.ofNat 776])]

/-- NFD decomposition of one character. -/
def nfdChar (c : Char) : List Char :=
  match lookupA c nfdTable with
  | some l => l
  | none => [c]

/-- The combining diacritical marks range of the regex `[̀-ͯ]`. -/
def combiningMark (c : Char) : Bool :=
  768 ≤ c.toNat && c.toNat ≤ 879

/-- The regex replace `[^a-z0-9]` ↦ `" "` on one character. -/
def spacifyChar (c : Char) : Char :=
  if isKeptChar c then c else ' '

/-- The regex replace `\s+` ↦ `" "`.  At this point of the pipeline the only
whitespace character is `' '`; a space that is immediately followed by
another space is dropped, so exactly one space per run survives. -/
def collapseSpaces : List Char → List Char
  | [] => []
  | [c] => [c]
  | a :: b :: t =>
    if a = ' ' ∧ b = ' ' then collapseSpaces (b :: t)
    else a :: collapseSpaces (b :: t)

/-- JS `trim()`; at this point of the pipeline only `' '` can occur. -/
def trimEnds (s : List Char) : List Char :=
  ((s.dropWhile fun c => decide (c = ' ')).reverse.dropWhile fun c =>
    decide (c = ' ')).reverse

/-- Embeds `normalizeText` (App.tsx 60–67; textually identical in part_001 23–30). -/
def normalizeText (s : Str) : Str :=
  trimEnds (collapseSpaces
    ((((s.map jsToLower).flatMap nfdChar).filter
        (fun c => !combiningMark c)).map spacifyChar))

/-! ### Idempotence infrastructure for the normalizer -/

/-- Characters that can occur in a normalizer output: `[a-z0-9]` or space. -/
def asChar (c : Char) : Bool := isKeptChar c || c = ' '

theorem asChar_spacifyChar (c : Char) : asChar (spacifyChar c) = true := by
  unfold spacifyChar asChar
  by_cases h : isKeptChar c = true <;> simp [h]

theorem mem_collapseSpaces {x : Char} :
    ∀ {s : List Char}, x ∈ collapseSpaces s → x ∈ s := by
  intro s
  induction s with
  | nil => simp [collapseSpaces]
  | cons a t ih =>
    match t with
    | [] => simp [collapseSpaces]
    | b :: t' =>
      intro h
      by_cases hs : a = ' ' ∧ b = ' '
      · simp only [collapseSpaces, if_pos hs] at h
        exact List.mem_cons_of_mem _ (ih h)
      · simp only [collapseSpaces, if_neg hs] at h
        rcases List.mem_cons.mp h with h | h
        · simp [h]
        · exact List.mem_cons_of_mem _ (ih h)

theorem mem_trimEnds {x : Char} {s : List Char} (h : x ∈ trimEnds s) : x ∈ s := by
  unfold trimEnds at h
  rw [List.mem_reverse] at h
  have h1 := (List.dropWhile_suffix (fun c => decide (c = ' '))).sublist.mem h
  rw [List.mem_reverse] at h1
  exact (List.dropWhile_suffix (fun c => decide (c = ' '))).sublist.mem h1

theorem asChar_of_mem_normalizeText {x : Char} {s : Str}
    (h : x ∈ normalizeText s) : asChar x = true := by
  unfold normalizeText at h
  have h1 := mem_collapseSpaces (mem_trimEnds h)
  rcases List.mem_map.mp h1 with ⟨c, _, hc⟩
  rw [← hc]
  exact asChar_spacifyChar c

theorem jsToLower_asChar {c : Char} (h : asChar c = true) : jsToLower c = c := by
  unfold asChar isKeptChar at h
  unfold jsToLower
  have hval : (97 ≤ c.toNat ∧ c.toNat ≤ 122) ∨ (48 ≤ c.toNat ∧ c.toNat ≤ 57) ∨
      c = ' ' := by
    simp only [Bool.or_eq_true, Bool.and_eq_true, decide_eq_true_eq] at h
    tauto
  have hrange : ¬(65 ≤ c.toNat && c.toNat ≤ 90) = true := by
    simp only [Bool.and_eq_true, decide_eq_true_eq, not_and, not_le]
    rcases hval with ⟨h1, _⟩ | ⟨_, h2⟩ | h3
    · intro _; omega
    · intro h4; omega
    · subst h3; intro h4; simp at h4
  rw [if_neg hrange]
  have : lookupA c accentLowerTable = none := by
    cases hl : lookupA c accentLowerTable with
    | none => rfl
    | some v =>
      exfalso
      have hm := lookupA_mem hl
      have hall : ∀ p ∈ accentLowerTable, asChar p.1 = false := by decide
      have := hall _ hm
      simp only [asChar, isKeptChar] at this h
      rw [this] at h
      exact Bool.false_ne_true h
  rw [this]

theorem nfdChar_asChar {c : Char} (h : asChar c = true) : nfdChar c = [c] := by
  unfold nfdChar
  have : lookupA c nfdTable = none := by
    cases hl : lookupA c nfdTable with
    | none => rfl
    | some v =>
      exfalso
      have hm := lookupA_mem hl
      have hall : ∀ p ∈ nfdTable, asChar p.1 = false := by decide
      have := hall _ hm
      rw [this] at h
      exact Bool.false_ne_true h
  rw [this]

theorem combiningMark_asChar {c : Char} (h : asChar c = true) :
    combiningMark c = false := by
  unfold asChar isKeptChar at h
  unfold combiningMark
  simp only [Bool.or_eq_true, Bool.and_eq_true, decide_eq_true_eq] at h
  have hval : c.toNat < 768 := by
    rcases h with (⟨h1, h2⟩ | ⟨h1, h2⟩) | h
    · omega
    · omega
    · have hsp : c = ' ' := by simpa using h
      subst hsp; decide
  simp only [Bool.and_eq_false_iff, decide_eq_false_iff_not, not_le]
  left; omega

theorem spacifyChar_asChar {c : Char} (h : asChar c = true) :
    spacifyChar c = c := by
  unfold spacifyChar
  unfold asChar at h
  by_cases hk : isKeptChar c = true
  · rw [if_pos hk]
  · simp only [Bool.or_eq_true, decide_eq_true_eq] at h
    rcases h with h | h
    · exact absurd h hk
    · rw [if_neg (by simpa using hk), h]

/-- No two adjacent spaces. -/
def NoDbl (s : List Char) : Prop :=
  List.Chain' (fun a b => ¬(a = ' ' ∧ b = ' ')) s

theorem collapseSpaces_noDbl : ∀ s : List Char, NoDbl (collapseSpaces s) := by
  intro s
  induction s with
  | nil => simp [collapseSpaces, NoDbl]
  | cons a t ih =>
    match t with
    | [] => simp [collapseSpaces, NoDbl]
    | b :: t' =>
      by_cases hs : a = ' ' ∧ b = ' '
      · simpa only [collapseSpaces, if_pos hs] using ih
      · simp only [collapseSpaces, if_neg hs]
        cases hcb : collapseSpaces (b :: t') with
        | nil => simp [NoDbl]
        | cons c rest =>
          have hc : c ∈ collapseSpaces (b :: t') := by rw [hcb]; simp
          have hcmem : c ∈ b :: t' := mem_collapseSpaces hc
          rw [hcb] at ih
          refine List.chain'_cons.mpr ⟨?_, ih⟩
          -- the head of `collapseSpaces (b :: t')` is `b` itself
          intro ⟨ha, hc'⟩
          -- if `a = ' '` and the next kept char is a space, then `b` must
          -- not be a space (else the branch was the other one); but the head
          -- of the collapsed tail is `b`.
          have hb : collapseSpaces (b :: t') = b :: (collapseSpaces (b :: t')).tail := by
            -- head of collapse of (b :: t') is b
            clear hcb hc hcmem ih
            induction t' with
            | nil => simp [collapseSpaces]
            | cons d t'' ih' =>
              by_cases hbd : b = ' ' ∧ d = ' '
              · rw [show collapseSpaces (b :: d :: t'') = collapseSpaces (d :: t'')
                  from if_pos hbd]
                obtain ⟨hb1, hd1⟩ := hbd
                subst hb1; subst hd1
                simpa using ih'
              · rw [show collapseSpaces (b :: d :: t'') =
                  b :: collapseSpaces (d :: t'') from if_neg hbd]
                simp
          rw [hb] at hcb
          have hbc : b = c := ((List.cons.injEq _ _ _ _).mp hcb).1
          exact hs ⟨ha, by rw [hbc]; exact hc'⟩

theorem collapseSpaces_eq_self : ∀ {s : List Char}, NoDbl s → collapseSpaces s = s := by
  intro s
  induction s with
  | nil => intro _; rfl
  | cons a t ih =>
    match t with
    | [] => intro _; rfl
    | b :: t' =>
      intro h
      have hc := List.chain'_cons.mp h
      rw [show collapseSpaces (a :: b :: t') = a :: collapseSpaces (b :: t')
        from if_neg hc.1]
      rw [ih hc.2]

theorem head_dropWhile_not {p : Char → Bool} :
    ∀ {l : List Char} {a : Char}, (l.dropWhile p).head? = some a → p a = false := by
  intro l
  induction l with
  | nil => intro a h; simp at h
  | cons x t ih =>
    intro a h
    by_cases hp : p x = true
    · rw [List.dropWhile_cons, if_pos hp] at h
      exact ih h
    · rw [List.dropWhile_cons, if_neg hp] at h
      simp at h
      rw [← h]
      simpa using hp

theorem dropWhile_eq_self_of_head {p : Char → Bool} {l : List Char}
    (h : ∀ a, l.head? = some a → p a = false) : l.dropWhile p = l := by
  cases l with
  | nil => rfl
  | cons x t =>
    rw [List.dropWhile_cons, if_neg]
    simp [h x rfl]

theorem chain'_dropWhile {R : Char → Char → Prop} {p : Char → Bool} :
    ∀ {l : List Char}, List.Chain' R l → List.Chain' R (l.dropWhile p) := by
  intro l
  induction l with
  | nil => intro h; simp
  | cons x t ih =>
    intro h
    by_cases hp : p x = true
    · rw [List.dropWhile_cons, if_pos hp]
      exact ih h.tail
    · rw [List.dropWhile_cons, if_neg hp]
      exact h

theorem noDbl_reverse {s : List Char} (h : NoDbl s) : NoDbl s.reverse := by
  unfold NoDbl at *
  rw [List.chain'_reverse]
  exact h.imp (fun a b hab => by intro ⟨h1, h2⟩; exact hab ⟨h2, h1⟩)

theorem noDbl_trimEnds {s : List Char} (h : NoDbl s) : NoDbl (trimEnds s) := by
  unfold trimEnds
  exact noDbl_reverse (chain'_dropWhile (noDbl_reverse (chain'_dropWhile h)))

theorem trimEnds_head {s : List Char} {a : Char}
    (h : (trimEnds s).head? = some a) : a ≠ ' ' := by
  unfold trimEnds at h
  set dl := s.dropWhile fun c => decide (c = ' ') with hdl
  set r := dl.reverse.dropWhile fun c => decide (c = ' ') with hr
  rw [List.head?_reverse] at h
  -- a is the last of r; r is a suffix of dl.reverse whose last is dl.head
  have hrs : r <:+ dl.reverse := List.dropWhile_suffix _
  obtain ⟨t, ht⟩ := hrs
  have hrne : r ≠ [] := by
    intro hre
    rw [hre] at h
    simp at h
  have : dl.reverse.getLast? = some a := by
    rw [← ht, List.getLast?_append]
    rw [h]
    rfl
  rw [List.getLast?_reverse] at this
  have h2 := head_dropWhile_not this
  simpa using h2

theorem trimEnds_getLast {s : List Char} {a : Char}
    (h : (trimEnds s).getLast? = some a) : a ≠ ' ' := by
  unfold trimEnds at h
  rw [List.getLast?_reverse] at h
  have h2 := head_dropWhile_not h
  simpa using h2

theorem trimEnds_eq_self {s : List Char}
    (hh : ∀ a, s.head? = some a → a ≠ ' ')
    (hl : ∀ a, s.getLast? = some a → a ≠ ' ') : trimEnds s = s := by
  unfold trimEnds
  have h1 : s.dropWhile (fun c => decide (c = ' ')) = s :=
    dropWhile_eq_self_of_head (fun a ha => by simpa using hh a ha)
  rw [h1]
  have h2 : s.reverse.dropWhile (fun c => decide (c = ' ')) = s.reverse :=
    dropWhile_eq_self_of_head (fun a ha => by
      rw [List.head?_reverse] at ha
      simpa using hl a ha)
  rw [h2, List.reverse_reverse]

theorem map_jsToLower_eq_self {l : List Char} (h : ∀ c ∈ l, asChar c = true) :
    l.map jsToLower = l := by
  induction l with
  | nil => rfl
  | cons x t ih =>
    simp only [List.map_cons]
    rw [jsToLower_asChar (h x (by simp)), ih (fun c hc => h c (by simp [hc]))]

theorem flatMap_nfdChar_eq_self {l : List Char} (h : ∀ c ∈ l, asChar c = true) :
    l.flatMap nfdChar = l := by
  induction l with
  | nil => rfl
  | cons x t ih =>
    simp only [List.flatMap_cons]
    rw [nfdChar_asChar (h x (by simp)), ih (fun c hc => h c (by simp [hc]))]
    rfl

theorem filter_combining_eq_self {l : List Char} (h : ∀ c ∈ l, asChar c = true) :
    l.filter (fun c => !combiningMark c) = l := by
  rw [List.filter_eq_self]
  intro a ha
  rw [combiningMark_asChar (h a ha)]
  rfl

theorem map_spacifyChar_eq_self {l : List Char} (h : ∀ c ∈ l, asChar c = true) :
    l.map spacifyChar = l := by
  induction l with
  | nil => rfl
  | cons x t ih =>
    simp only [List.map_cons]
    rw [spacifyChar_asChar (h x (by simp)), ih (fun c hc => h c (by simp [hc]))]

theorem normalizeText_noDbl (s : Str) : NoDbl (normalizeText s) := by
  unfold normalizeText
  exact noDbl_trimEnds (collapseSpaces_noDbl _)

theorem normalizeText_head {s : Str} {a : Char}
    (h : (normalizeText s).head? = some a) : a ≠ ' ' :=
  trimEnds_head h

theorem normalizeText_getLast {s : Str} {a : Char}
    (h : (normalizeText s).getLast? = some a) : a ≠ ' ' :=
  trimEnds_getLast h

/-- Claim C8:  Normalization is idempotent:
`normalize(normalize(s)) == normalize(s)` for every string `s`
(spec §8; `normalizeText`, App.tsx 60–67 and part_001 23–30). -/
theorem normalizeText_idempotent (s : Str) :
    normalizeText (normalizeText s) = normalizeText s := by
  have hmem : ∀ c ∈ normalizeText s, asChar c = true :=
    fun c hc => asChar_of_mem_normalizeText hc
  have hnd : NoDbl (normalizeText s) := normalizeText_noDbl s
  have hhd : ∀ a, (normalizeText s).head? = some a → a ≠ ' ' :=
    fun a ha => normalizeText_head ha
  have hgl : ∀ a, (normalizeText s).getLast? = some a → a ≠ ' ' :=
    fun a ha => normalizeText_getLast ha
  set N := normalizeText s with hN
  show trimEnds (collapseSpaces
    ((((N.map jsToLower).flatMap nfdChar).filter
        (fun c => !combiningMark c)).map spacifyChar)) = N
  rw [map_jsToLower_eq_self hmem]
  rw [flatMap_nfdChar_eq_self hmem]
  rw [filter_combining_eq_self hmem]
  rw [map_spacifyChar_eq_self hmem]
  rw [collapseSpaces_eq_self hnd]
  exact trimEnds_eq_self hhd hgl

/-! ## JS string splitting helpers -/

/-- JS `split(" ")`: pieces between single-space separators.  Consecutive
separators and separators at either boundary yield empty pieces, and the
result is never the empty list (JS `"".split(" ")` is `[""]`). -/
def jsSplitSpace : List Char → List (List Char)
  | [] => [[]]
  | c :: rest =>
    if c = ' ' then [] :: jsSplitSpace rest
    else
      match jsSplitSpace rest with
      | t :: ts => (c :: t) :: ts
      | [] => [[c]]

theorem jsSplitSpace_ne_nil (s : List Char) : jsSplitSpace s ≠ [] := by
  cases s with
  | nil => simp [jsSplitSpace]
  | cons c rest =>
    by_cases hc : c = ' '
    · simp [jsSplitSpace, hc]
    · simp only [jsSplitSpace, if_neg hc]
      cases jsSplitSpace rest <;> simp

/-- The head piece of `split(" ")` is a leading piece of the input. -/
theorem jsSplitSpace_head_isPre :
    ∀ {r v : List Char} {vs : List (List Char)},
      jsSplitSpace r = v :: vs → v <+: r := by
  intro r
  induction r with
  | nil =>
    intro v vs hv
    simp [jsSplitSpace] at hv
    simp [hv.1]
  | cons d r' ihr =>
    intro v vs hv
    by_cases hd : d = ' '
    · simp only [jsSplitSpace, if_pos hd] at hv
      have : v = [] := ((List.cons.injEq _ _ _ _).mp hv).1.symm
      simp [this]
    · simp only [jsSplitSpace, if_neg hd] at hv
      cases hsp : jsSplitSpace r' with
      | nil => exact absurd hsp (jsSplitSpace_ne_nil r')
      | cons w ws =>
        rw [hsp] at hv
        have hv1 : v = d :: w := ((List.cons.injEq _ _ _ _).mp hv).1.symm
        rw [hv1]
        exact (List.prefix_cons_inj d).mpr (ihr hsp)

/-- Every piece of `split(" ")` is a contiguous substring of the input. -/
theorem mem_jsSplitSpace_infix {t : List Char} :
    ∀ {s : List Char}, t ∈ jsSplitSpace s → t <:+: s := by
  intro s
  induction s with
  | nil =>
    intro h
    simp [jsSplitSpace] at h
    simp [h]
  | cons c rest ih =>
    intro h
    by_cases hc : c = ' '
    · simp only [jsSplitSpace, if_pos hc] at h
      rcases List.mem_cons.mp h with h | h
      · simp [h]
      · exact List.infix_cons (ih h)
    · simp only [jsSplitSpace, if_neg hc] at h
      cases hsp : jsSplitSpace rest with
      | nil => exact absurd hsp (jsSplitSpace_ne_nil rest)
      | cons u us =>
        rw [hsp] at h
        rcases List.mem_cons.mp h with h | h
        · subst h
          exact ((List.prefix_cons_inj c).mpr (jsSplitSpace_head_isPre hsp)).isInfix
        · exact List.infix_cons (ih (by rw [hsp]; simp [h]))

/-- Separator class of the regex `[\n,]+` used by the extraction fallback. -/
def isSepNLComma (c : Char) : Bool := c = '\n' || c = ','

/-- JS `split(/[\n,]+/)`: a maximal run of separators is one boundary; runs at
either end leave an empty piece there. -/
def jsSplitRuns : List Char → List (List Char)
  | [] => [[]]
  | [c] => if isSepNLComma c then [[], []] else [[c]]
  | a :: b :: t =>
    if isSepNLComma a then
      if isSepNLComma b then jsSplitRuns (b :: t)
      else [] :: jsSplitRuns (b :: t)
    else
      match jsSplitRuns (b :: t) with
      | u :: us => (a :: u) :: us
      | [] => [[a]]

/-- JS whitespace for `trim()` (the ASCII whitespace characters plus NBSP;
the repository's inputs contain no exotic Unicode whitespace). -/
def isJsWhitespace (c : Char) : Bool :=
  c.toNat = 32 || c.toNat = 9 || c.toNat = 10 || c.toNat = 13 ||
  c.toNat = 11 || c.toNat = 12 || c.toNat = 160

/-- JS `trim()` on a raw (pre-normalization) string. -/
def jsTrim (s : Str) : Str :=
  ((s.dropWhile isJsWhitespace).reverse.dropWhile isJsWhitespace).reverse

/-- Splits a token at its first `e`, for the scientific-literal check. -/
def sciSplit : Str → Option (Str × Str)
  | [] => none
  | c :: rest =>
    if c = 'e' then some ([], rest)
    else
      match sciSplit rest with
      | some (m, e) => some (c :: m, e)
      | none => none

def isDigit09 (c : Char) : Bool := 48 ≤ c.toNat && c.toNat ≤ 57

def isHexDigitLower (c : Char) : Bool :=
  isDigit09 c || (97 ≤ c.toNat && c.toNat ≤ 102)

def isOctDigit (c : Char) : Bool := 48 ≤ c.toNat && c.toNat ≤ 55

def isBinDigit (c : Char) : Bool := c = '0' || c = '1'

/-- Embeds `!isNaN(Number(token))` for a normalized token (characters are in
`[a-z0-9]`, so the only numeric literal shapes are decimal digit runs,
`0x`/`0o`/`0b` radix literals and `<digits>e<digits>` scientific literals;
the empty string also converts to `0` in JS). -/
def jsNumericToken (t : Str) : Bool :=
  match t with
  | '0' :: 'x' :: ds => !ds.isEmpty && ds.all isHexDigitLower
  | '0' :: 'o' :: ds => !ds.isEmpty && ds.all isOctDigit
  | '0' :: 'b' :: ds => !ds.isEmpty && ds.all isBinDigit
  | _ =>
    if t.all isDigit09 then true
    else
      match sciSplit t with
      | some (m, e) =>
        !m.isEmpty && !e.isEmpty && m.all isDigit09 && e.all isDigit09
      | none => false

/-! ## Levenshtein distance

Two implementations exist in the source.  Each fills the classic DP matrix
with base row/column `0..len`; the matrix corner equals the structural
recursion below on the two strings, whose step is exactly the source's
cell recurrence (applied from the string heads inward).
-/

/-- Inner recursion for `levenshtein` (App.tsx 70–99): the source's cell
update is `matrix[i][j] = matrix[i-1][j-1]` when the two characters agree and
`min(diag + 1, left + 1, up + 1)` otherwise.  `recv` is the distance from the
tail `xs` of the first string. -/
def levenshteinAux (recv : Str → ℕ) (x : Char) (xs : Str) : Str → ℕ
  | [] => xs.length + 1
  | y :: ys =>
    if x = y then recv ys
    else 1 + min (recv ys) (min (levenshteinAux recv x xs ys) (recv (y :: ys)))

/-- Embeds `levenshtein` (App.tsx 70–99), including its base cases
`a.length === 0 ⇒ b.length` and `b.length === 0 ⇒ a.length`. -/
def levenshtein : Str → Str → ℕ
  | [], b => b.length
  | x :: xs, b => levenshteinAux (levenshtein xs) x xs b

/-- Inner recursion for the part_001 `levenshtein` (part_001 32–46): the
source's cell update is `min(up + 1, left + 1, diag + cost)` with
substitution cost 0/1; no early return for empty inputs. -/
def levenshteinV1Aux (recv : Str → ℕ) (x : Char) (xs : Str) : Str → ℕ
  | [] => xs.length + 1
  | y :: ys =>
    min (recv (y :: ys) + 1)
      (min (levenshteinV1Aux recv x xs ys + 1)
        (recv ys + (if x = y then 0 else 1)))

/-- Embeds the `levenshtein` of part_001 (lines 32–46). -/
def levenshteinV1 : Str → Str → ℕ
  | [], b => b.length
  | x :: xs, b => levenshteinV1Aux (levenshteinV1 xs) x xs b

theorem levenshtein_self : ∀ a : Str, levenshtein a a = 0
  | [] => rfl
  | x :: xs => by
    show levenshteinAux (levenshtein xs) x xs (x :: xs) = 0
    simp [levenshteinAux, levenshtein_self xs]

theorem levenshteinV1_self : ∀ a : Str, levenshteinV1 a a = 0
  | [] => rfl
  | x :: xs => by
    show levenshteinV1Aux (levenshteinV1 xs) x xs (x :: xs) = 0
    simp [levenshteinV1Aux, levenshteinV1_self xs]

theorem levenshtein_comm_aux :
    ∀ n (a b : Str), a.length + b.length ≤ n →
      levenshtein a b = levenshtein b a := by
  intro n
  induction n with
  | zero =>
    intro a b h
    match a, b with
    | [], [] => rfl
    | [], _ :: _ => simp at h
    | _ :: _, _ => simp at h
  | succ n ih =>
    intro a b h
    match a, b with
    | [], b =>
      cases b with
      | nil => rfl
      | cons y ys => simp [levenshtein, levenshteinAux]
    | x :: xs, [] => simp [levenshtein, levenshteinAux]
    | x :: xs, y :: ys =>
      have hlen : xs.length + ys.length + 2 ≤ n + 1 := by
        simpa [Nat.add_comm, Nat.add_left_comm, Nat.add_assoc] using h
      have h1 : levenshtein xs ys = levenshtein ys xs := ih xs ys (by omega)
      have h2 : levenshtein (x :: xs) ys = levenshtein ys (x :: xs) :=
        ih (x :: xs) ys (by simp; omega)
      have h3 : levenshtein xs (y :: ys) = levenshtein (y :: ys) xs :=
        ih xs (y :: ys) (by simp; omega)
      show levenshteinAux (levenshtein xs) x xs (y :: ys) =
        levenshteinAux (levenshtein ys) y ys (x :: xs)
      have fold1 : levenshteinAux (levenshtein xs) x xs ys =
        levenshtein (x :: xs) ys := rfl
      have fold2 : levenshteinAux (levenshtein ys) y ys xs =
        levenshtein (y :: ys) xs := rfl
      by_cases hxy : x = y
      · subst hxy
        simp only [levenshteinAux, if_pos rfl]
        exact h1
      · simp only [levenshteinAux, if_neg hxy, if_neg (Ne.symm hxy)]
        rw [fold1, fold2, h1, h2, h3]
        omega

theorem levenshteinV1_comm_aux :
    ∀ n (a b : Str), a.length + b.length ≤ n →
      levenshteinV1 a b = levenshteinV1 b a := by
  intro n
  induction n with
  | zero =>
    intro a b h
    match a, b with
    | [], [] => rfl
    | [], _ :: _ => simp at h
    | _ :: _, _ => simp at h
  | succ n ih =>
    intro a b h
    match a, b with
    | [], b =>
      cases b with
      | nil => rfl
      | cons y ys => simp [levenshteinV1, levenshteinV1Aux]
    | x :: xs, [] => simp [levenshteinV1, levenshteinV1Aux]
    | x :: xs, y :: ys =>
      have h1 : levenshteinV1 xs ys = levenshteinV1 ys xs := ih xs ys (by simp at h; omega)
      have h2 : levenshteinV1 (x :: xs) ys = levenshteinV1 ys (x :: xs) :=
        ih (x :: xs) ys (by simp at h ⊢; omega)
      have h3 : levenshteinV1 xs (y :: ys) = levenshteinV1 (y :: ys) xs :=
        ih xs (y :: ys) (by simp at h ⊢; omega)
      show levenshteinV1Aux (levenshteinV1 xs) x xs (y :: ys) =
        levenshteinV1Aux (levenshteinV1 ys) y ys (x :: xs)
      have fold1 : levenshteinV1Aux (levenshteinV1 xs) x xs ys =
        levenshteinV1 (x :: xs) ys := rfl
      have fold2 : levenshteinV1Aux (levenshteinV1 ys) y ys xs =
        levenshteinV1 (y :: ys) xs := rfl
      simp only [levenshteinV1Aux]
      rw [fold1, fold2, h1, h2, h3]
      by_cases hxy : x = y
      · rw [if_pos hxy, if_pos hxy.symm]
        omega
      · rw [if_neg hxy, if_neg (Ne.symm hxy)]
        omega

/-- Claim C9:  Both edit-distance implementations (`levenshtein`, App.tsx
70–99, and the part_001 variant, lines 32–46) satisfy `distance(a, a) = 0`
and symmetry `distance(a, b) = distance(b, a)` for all strings. -/
theorem levenshtein_props (a b : Str) :
    levenshtein a a = 0 ∧ levenshtein a b = levenshtein b a ∧
    levenshteinV1 a a = 0 ∧ levenshteinV1 a b = levenshteinV1 b a :=
  ⟨levenshtein_self a,
   levenshtein_comm_aux (a.length + b.length) a b le_rfl,
   levenshteinV1_self a,
   levenshteinV1_comm_aux (a.length + b.length) a b le_rfl⟩

/-! ## Static vocabulary tables -/

/-- Embeds `medicalThesaurus` (App.tsx 9–45). -/
def medicalThesaurus : List (Str × List Str) :=
  [("afastador".data, ["afastador".data, "afast".data, "retractor".data, "afast.".data]),
   ("pinca".data, ["pinca".data, "pinça".data, "forceps".data, "clamp".data, "pinca.".data, "pinça.".data]),
   ("tesoura".data, ["tesoura".data, "tes".data, "scissors".data, "tes.".data]),
   ("porta".data, ["porta".data, "needle".data, "holder".data, "porta-agulha".data]),
   ("cabo".data, ["cabo".data, "handle".data]),
   ("fio".data, ["fio".data, "suture".data, "wire".data]),
   ("volkmann".data, ["volkmann".data, "volkman".data, "wulkman".data, "vulkman".data, "vulkmann".data, "wolkman".data, "wolkmann".data]),
   ("kocher".data, ["kocher".data, "kocker".data, "cocher".data, "cocker".data, "kocher.".data]),
   ("senn".data, ["senn".data, "sen".data, "semm".data, "sem".data]),
   ("mueller".data, ["mueller".data, "muller".data, "mulir".data, "muler".data]),
   ("metzenbaum".data, ["metzenbaum".data, "metz".data, "metzebaum".data]),
   ("mayo".data, ["mayo".data, "maio".data]),
   ("kelly".data, ["kelly".data, "kely".data, "keli".data]),
   ("clipe".data, ["clipe".data, "clips".data, "clip".data]),
   ("gancho".data, ["gancho".data, "ganchos".data, "garra".data, "garras".data, "dente".data, "dentes".data]),
   ("mosquito".data, ["mosquito".data, "halstead".data, "halsted".data]),
   ("bisturi".data, ["bisturi".data, "scalpel".data, "lâmina".data, "lamina".data]),
   ("adson".data, ["adson".data, "adsson".data]),
   ("allis".data, ["allis".data, "alis".data]),
   ("babcock".data, ["babcock".data, "babcok".data]),
   ("backhaus".data, ["backhaus".data, "backaus".data]),
   ("gelpi".data, ["gelpi".data, "gelpy".data, "golpi".data]),
   ("weitlaner".data, ["weitlaner".data, "weitlaner".data, "westphal".data]),
   ("mixter".data, ["mixter".data, "mixture".data]),
   ("crile".data, ["crile".data, "crille".data]),
   ("rochester".data, ["rochester".data]),
   ("pean".data, ["pean".data]),
   ("guthrie".data, ["guthrie".data, "gunthrie".data, "gutrie".data]),
   ("cizalha".data, ["cizalha".data, "cisalha".data, "alicate".data]),
   ("liston".data, ["liston".data, "listom".data]),
   ("farabeuf".data, ["farabeuf".data, "farabef".data, "farabauf".data]),
   ("yankauer".data, ["yankauer".data, "yankau".data, "yancauer".data]),
   ("hartmann".data, ["hartmann".data, "hartman".data]),
   ("bunt".data, ["bunt".data, "bunti".data]),
   ("hegar".data, ["hegar".data, "hegger".data])]

/-- Embeds `STOP_WORDS` (App.tsx 48–50). -/
def STOP_WORDS : List Str :=
  ["de".data, "do".data, "da".data, "com".data, "para".data, "em".data,
   "cm".data, "mm".data, "ml".data, "unid".data, "cx".data, "pc".data,
   "pç".data, "jogo".data, "kit".data, "conjunto".data]

/-- Embeds `CATEGORY_TERMS` (App.tsx 53–58). -/
def CATEGORY_TERMS : List Str :=
  ["afastador".data, "pinca".data, "pinça".data, "tesoura".data, "porta".data,
   "cabo".data, "fio".data, "lamina".data, "lâmina".data, "bisturi".data,
   "agulha".data, "clip".data, "clipe".data, "clips".data, "broca".data,
   "raspador".data, "elevador".data, "descolador".data, "valva".data,
   "especulo".data, "espéculo".data, "aspirador".data, "canula".data,
   "cânula".data, "cesta".data, "caixa".data, "cizalha".data, "gancho".data,
   "garra".data, "dente".data, "sonda".data, "cateter".data, "drill".data,
   "perfurador".data]

/-- The `part_001` thesaurus (part_001 lines 7–21). -/
def medicalThesaurusV1 : List (Str × List Str) :=
  [("afastador".data, ["afastador".data, "afast".data, "retractor".data]),
   ("pinca".data, ["pinca".data, "pinça".data, "forceps".data, "clamp".data]),
   ("tesoura".data, ["tesoura".data, "tes".data, "scissors".data]),
   ("porta".data, ["porta".data, "needle".data, "holder".data]),
   ("cabo".data, ["cabo".data, "handle".data]),
   ("volkmann".data, ["volkmann".data, "volkman".data, "wulkman".data, "vulkman".data, "vulkmann".data]),
   ("senn".data, ["senn".data, "sen".data, "semm".data, "sem".data]),
   ("mueller".data, ["mueller".data, "muller".data, "mulir".data, "muler".data]),
   ("metzenbaum".data, ["metzenbaum".data, "metz".data, "metzebaum".data]),
   ("mayo".data, ["mayo".data, "maio".data]),
   ("kelly".data, ["kelly".data, "kely".data]),
   ("clipe".data, ["clipe".data, "clips".data, "clip".data]),
   ("clips".data, ["clips".data, "clipe".data, "clip".data])]

/-- Embeds `medicalThesaurus[token] || [token]` — every token is its own synonym by
default (both variants use this shape). -/
def synonymsOf (thes : List (Str × List Str)) (t : Str) : List Str :=
  match lookupA t thes with
  | some l => l
  | none => [t]

theorem medicalThesaurus_self_mem : ∀ p ∈ medicalThesaurus, p.1 ∈ p.2 := by
  decide

theorem medicalThesaurusV1_self_mem : ∀ p ∈ medicalThesaurusV1, p.1 ∈ p.2 := by
  decide

theorem mem_synonymsOf_self {thes : List (Str × List Str)}
    (hthes : ∀ p ∈ thes, p.1 ∈ p.2) (t : Str) : t ∈ synonymsOf thes t := by
  unfold synonymsOf
  cases hl : lookupA t thes with
  | none => simp
  | some l => exact hthes _ (lookupA_mem hl)

/-! ## The product record

Only the fields consumed by the engine logic embedded here are kept
(`MappedProduct` in `src/types.ts` also carries image/category/brand/
description and the raw row, which the scoring, ranking and quotation code
never reads). -/

structure MappedProduct where
  id : Str
  title : Str
  code : Str
  /-- Embeds `price: number | null`; integral minor currency units (see header). -/
  price : Option ℤ
  supplier : Str
deriving DecidableEq, Repr

/-! ## The App.tsx relevance scorer (`calculateMatchScore`, lines 101–198)

All score values are in *tenths* of the source's values (see header):
match qualities 1.0 / 0.9 / `1.0 − dist·0.2` become 10 / 9 / `10 − dist·2`,
and the additive constants 6000 / 2000 / 1000 / −3000 become ×10.  Token
*weights* (50 / 2500 / 500 / 4500) and the weight thresholds `> 1000`,
`> 100` are exactly the source's numbers. -/

/-- The token lists the scorer works on: `normalizedQuery.split(" ")`
filtered to non-empty tokens (App.tsx 105), and `normalizedTitle.split(" ")`
unfiltered (App.tsx 106). -/
def queryTokensOf (query : Str) : List Str :=
  (jsSplitSpace (normalizeText query)).filter (fun t => decide (t.length > 0))

def productTokensOf (title : Str) : List Str :=
  jsSplitSpace (normalizeText title)

/-- Step 1, completeness gate (App.tsx 113–121): every query token that is
not a stop word and not a short numeric token must occur (via a synonym) as
a substring of the normalized title. -/
def allImportantTokensPresent (queryTokens : List Str)
    (normalizedTitle : Str) : Bool :=
  queryTokens.all fun qToken =>
    if qToken ∈ STOP_WORDS then true
    else if qToken.length < 3 && jsNumericToken qToken then true
    else (synonymsOf medicalThesaurus qToken).any fun syn =>
      decide (syn <:+: normalizedTitle)

/-- Token weight classes (App.tsx 129–140). -/
def tokenWeight (qToken : Str) : ℤ :=
  if qToken ∈ STOP_WORDS then 50
  else if qToken ∈ CATEGORY_TERMS then 2500
  else if jsNumericToken qToken then 500
  else 4500

/-- One iteration of the title-token loop (App.tsx 145–170): exact/synonym
match (quality 1.0 ↦ 10, then `continue`), prefix match for heavier tokens
(quality 0.9 ↦ 9, then `continue`), else bounded fuzzy match with quality
`1.0 − dist·0.2` ↦ `10 − dist·2`. -/
def tokenQualityStep (qToken : Str) (w : ℤ) (best : ℤ) (pToken : Str) : ℤ :=
  if (synonymsOf medicalThesaurus qToken).any (fun s => decide (s = pToken)) then
    max best 10
  else if w > 1000 ∧ qToken.length > 3 ∧ qToken <+: pToken then
    max best 9
  else if w > 100 ∧ qToken.length > 3 then
    let dist := levenshtein qToken pToken
    let threshold := if qToken.length > 6 then 2 else 1
    if dist ≤ threshold then max best (10 - (dist : ℤ) * 2) else best
  else best

/-- Embeds `bestTokenScore` for one query token (App.tsx 127, 145–170). -/
def bestTokenScore (qToken : Str) (w : ℤ) (productTokens : List Str) : ℤ :=
  productTokens.foldl (tokenQualityStep qToken w) 0

/-- Step 2, the weighted per-token accumulation (App.tsx 126–176):
`bestTokenScore * tokenWeight` is added only when `bestTokenScore > 0`. -/
def tokenMatchSum (queryTokens productTokens : List Str) : ℤ :=
  (queryTokens.map fun qToken =>
    let w := tokenWeight qToken
    let best := bestTokenScore qToken w productTokens
    if best > 0 then best * w else 0).sum

/-- Step 3, anchor bias (App.tsx 178–187): `findIndex` of the first title
token that is a synonym of the first query token; +2000 (↦ 20000) at
position 0, +1000 (↦ 10000) at a later position, nothing if absent. -/
def anchorScore (queryTokens productTokens : List Str) : ℤ :=
  let anchorToken := queryTokens.headD []
  let anchorSynonyms := synonymsOf medicalThesaurus anchorToken
  match productTokens.findIdx? (fun p => decide (p ∈ anchorSynonyms)) with
  | some 0 => 20000
  | some _ => 10000
  | none => 0

/-- Step 4, accessory-penalty condition (App.tsx 189–195): the title has an
accessory token (`cabo`/`suporte`) but the query anchor does not ask for
one. -/
def accessoryPenaltyApplies (queryTokens productTokens : List Str) : Bool :=
  let anchorSynonyms := synonymsOf medicalThesaurus (queryTokens.headD [])
  decide ((("cabo".data ∈ productTokens) ∨ ("suporte".data ∈ productTokens)) ∧
    ¬(("cabo".data ∈ anchorSynonyms) ∨ ("suporte".data ∈ anchorSynonyms)))

/-- Embeds `calculateMatchScore` (App.tsx 101–198), in tenths of the source value. -/
def calculateMatchScore (product : MappedProduct) (query : Str) : ℤ :=
  let normalizedTitle := normalizeText product.title
  let queryTokens := queryTokensOf query
  let productTokens := jsSplitSpace normalizedTitle
  if queryTokens.length = 0 then 0
  else
    let s1 : ℤ := if allImportantTokensPresent queryTokens normalizedTitle
      then 60000 else 0
    let s2 : ℤ := s1 + tokenMatchSum queryTokens productTokens
    let s3 : ℤ := s2 + anchorScore queryTokens productTokens
    if accessoryPenaltyApplies queryTokens productTokens then s3 - 30000 else s3

/-! ## The part_001 relevance scorer (`calculateMatchScore`, part_001 48–100)

This variant is integer-valued in the source; its constants are embedded
verbatim (no rescaling). -/

/-- Embeds `containsAllTokens` (part_001 59–62). -/
def containsAllTokensV1 (queryTokens : List Str) (productTitle : Str) : Bool :=
  queryTokens.all fun token =>
    (synonymsOf medicalThesaurusV1 token).any fun syn =>
      decide (syn <:+: productTitle)

/-- Embeds `productStartsWithAnchor` (part_001 69): the first title word equals a
synonym of the anchor or starts with one (`productWords[0]` is always
defined — JS `split` never yields an empty array). -/
def anchorStartsV1 (anchorSynonyms productWords : List Str) : Bool :=
  anchorSynonyms.any fun syn =>
    decide (productWords.headD [] = syn) || syn.isPrefixOf (productWords.headD [])

/-- Embeds `productContainsAnchor` (part_001 70). -/
def anchorContainsV1 (anchorSynonyms productWords : List Str) : Bool :=
  anchorSynonyms.any fun syn => decide (syn ∈ productWords)

/-- Embeds `accessoryKeywords` (part_001 79). -/
def accessoryKeywords : List Str :=
  ["cabo".data, "capa".data, "suporte".data, "p/".data, "para".data]

/-- The inner `bestMatch` loop over title words (part_001 86–95): exact
synonym match sets 2000; otherwise a bounded fuzzy match contributes
`max(best, 1000 − dist·200)`. -/
def bestMatchV1 (token : Str) (synonyms productWords : List Str) : ℤ :=
  productWords.foldl (fun bestMatch word =>
    if synonyms.any fun s => decide (word = s) then 2000
    else
      let dist := levenshteinV1 token word
      let threshold := if token.length > 5 then 2 else 1
      if dist ≤ threshold then max bestMatch (1000 - (dist : ℤ) * 200)
      else bestMatch) 0

/-- The per-token accumulation of part_001 (lines 84–97). -/
def tokenSumV1 (queryTokens productWords : List Str) : ℤ :=
  (queryTokens.map fun token =>
    bestMatchV1 token (synonymsOf medicalThesaurusV1 token) productWords).sum

/-- The accessory-penalty condition of part_001 (lines 78–82). -/
def accessoryPenaltyAppliesV1 (anchorSynonyms productWords : List Str) : Bool :=
  decide ((∃ w ∈ productWords, w ∈ accessoryKeywords) ∧
    ¬("cabo".data ∈ anchorSynonyms))

/-- The tail of the part_001 scorer after the anchor branch: accessory
penalty (−4000), then the per-token accumulation (part_001 78–99). -/
def scoreTailV1 (anchorSynonyms queryTokens productWords : List Str)
    (s : ℤ) : ℤ :=
  (if accessoryPenaltyAppliesV1 anchorSynonyms productWords then s - 4000
   else s) + tokenSumV1 queryTokens productWords

/-- Embeds the `calculateMatchScore` of part_001 (lines 48–100): +5000 completeness
bonus, anchor bonus +5000 / +1000, **early `return -1`** for a multi-token
query whose anchor matches nowhere, −4000 accessory penalty, then the
per-token accumulation. -/
def calculateMatchScoreV1 (product : MappedProduct) (query : Str) : ℤ :=
  let queryTokens := queryTokensOf query
  if queryTokens.length = 0 then 0
  else
    let productTitle := normalizeText product.title
    let productWords := jsSplitSpace productTitle
    let s1 : ℤ := if containsAllTokensV1 queryTokens productTitle then 5000 else 0
    let anchorSynonyms := synonymsOf medicalThesaurusV1 (queryTokens.headD [])
    if anchorStartsV1 anchorSynonyms productWords then
      scoreTailV1 anchorSynonyms queryTokens productWords (s1 + 5000)
    else if anchorContainsV1 anchorSynonyms productWords then
      scoreTailV1 anchorSynonyms queryTokens productWords (s1 + 1000)
    else if queryTokens.length > 1 then -1
    else scoreTailV1 anchorSynonyms queryTokens productWords s1

/-- The part_001 scorer with the early `return -1` removed — the pure
weighted accumulation, used to state what the rejection changes. -/
def calculateMatchScoreV1NoReject (product : MappedProduct) (query : Str) : ℤ :=
  let queryTokens := queryTokensOf query
  if queryTokens.length = 0 then 0
  else
    let productTitle := normalizeText product.title
    let productWords := jsSplitSpace productTitle
    let s1 : ℤ := if containsAllTokensV1 queryTokens productTitle then 5000 else 0
    let anchorSynonyms := synonymsOf medicalThesaurusV1 (queryTokens.headD [])
    if anchorStartsV1 anchorSynonyms productWords then
      scoreTailV1 anchorSynonyms queryTokens productWords (s1 + 5000)
    else if anchorContainsV1 anchorSynonyms productWords then
      scoreTailV1 anchorSynonyms queryTokens productWords (s1 + 1000)
    else scoreTailV1 anchorSynonyms queryTokens productWords s1

/-! ## Ranker (`handleSearch`, App.tsx 244–248)

`allProducts.map(p => ({...p, matchScore})).filter(>0).sort(desc).slice(0,15)`.

JS `Array.prototype.sort` with comparator `(a, b) => b.matchScore - a.matchScore`
is a *stable* descending sort; it is embedded as a stable insertion sort
(`insertDesc`/`sortByScoreDesc`): each element is inserted after all already
placed elements of greater-or-equal score, which preserves input order among
equal scores. -/

structure ScoredProduct where
  product : MappedProduct
  matchScore : ℤ
deriving DecidableEq, Repr

def insertDesc (a : ScoredProduct) : List ScoredProduct → List ScoredProduct
  | [] => [a]
  | b :: t =>
    if b.matchScore < a.matchScore then a :: b :: t
    else b :: insertDesc a t

def sortByScoreDesc (l : List ScoredProduct) : List ScoredProduct :=
  l.foldl (fun acc a => insertDesc a acc) []

/-- The scored catalog with non-candidates removed (App.tsx 244–246):
`allProducts.map(p => ({...p, matchScore})).filter(p => (p.matchScore||0) > 0)`. -/
def scoredCandidates (catalog : List MappedProduct) (query : Str) :
    List ScoredProduct :=
  (catalog.map fun p =>
    ScoredProduct.mk p (calculateMatchScore p query)).filter
    fun s => decide (0 < s.matchScore)

/-- The per-term candidate list of `handleSearch` (App.tsx 244–248). -/
def rank (catalog : List MappedProduct) (query : Str) : List ScoredProduct :=
  (sortByScoreDesc (scoredCandidates catalog query)).take 15

/-! ## Quotation aggregator (App.tsx 200–351)

`handleSearch` builds one `BulkSearchResult` per extracted item and
auto-fills `quotationState`; `handleQuantityChange` overrides one line;
`grandTotal` / `handleExportCSV` / the table body all resolve the effective
selection of a line with the same expression, embedded once below
(`effectiveActiveId` / `effectiveQty` / `effectiveProduct`). -/

structure ExtractedItem where
  name : Str
  quantity : ℤ
deriving DecidableEq, Repr

/-- One `BulkSearchResult` (App.tsx 253–258; `originalTerm` is always set to
the same string as `term` and is never read separately, so it is not
duplicated here). -/
structure LineResult where
  term : Str
  products : List ScoredProduct
  detectedQuantity : ℤ
deriving DecidableEq, Repr

/-- Embeds `quotationState`: term index ↦ inner record, embedded as its list of
(product id, quantity) entries (`Record<number, Record<string, number>>`). -/
def QuotationMap := Nat → List (Str × ℤ)

/-- The `results` array built by `handleSearch` (App.tsx 243–259). -/
def buildQuotation (catalog : List MappedProduct) (items : List ExtractedItem) :
    List LineResult :=
  items.map fun it => LineResult.mk it.name (rank catalog it.name) it.quantity

/-- The quotation state right after `handleSearch` finishes (App.tsx 236 and
250–252): reset to `{}` and then, for every line with at least one match,
`{[index]: {[matches[0].id]: item.quantity}}`. -/
def initialQuotation (catalog : List MappedProduct)
    (items : List ExtractedItem) : QuotationMap :=
  fun idx =>
    match (buildQuotation catalog items)[idx]? with
    | some line =>
      match line.products with
      | m :: _ => [(m.product.id, line.detectedQuantity)]
      | [] => []
    | none => []

/-- Embeds `handleQuantityChange` (App.tsx 290–295): the line's record is replaced
by the singleton `{[productId]: Math.max(1, newQty)}`. -/
def handleQuantityChange (st : QuotationMap) (termIndex : Nat)
    (productId : Str) (newQty : ℤ) : QuotationMap :=
  fun i => if i = termIndex then [(productId, max 1 newQty)] else st i

/-- Embeds `onToggleSelect` (App.tsx 539–543): the line's record is replaced by the
singleton `{[pId]: result.detectedQuantity || 1}` (`0` is falsy in JS). -/
def toggleSelect (st : QuotationMap) (termIndex : Nat) (productId : Str)
    (detectedQuantity : ℤ) : QuotationMap :=
  fun i =>
    if i = termIndex then
      [(productId, if detectedQuantity = 0 then 1 else detectedQuantity)]
    else st i

/-- Embeds `selectedIds[0] || (result.products.length > 0 ? result.products[0].id
: null)` (App.tsx 307–308 / 318–319 / 458–460); the empty string is falsy
in JS, hence the explicit check. -/
def effectiveActiveId (st : QuotationMap) (idx : Nat) (line : LineResult) :
    Option Str :=
  let defaultId : Option Str :=
    match line.products with
    | m :: _ => some m.product.id
    | [] => none
  match (st idx).map Prod.fst with
  | k :: _ => if k = [] then defaultId else some k
  | [] => defaultId

/-- Embeds `quotationState[idx]?.[activeId] || result.detectedQuantity`
(App.tsx 310 / 321 / 462); a stored quantity of `0` is falsy. -/
def effectiveQty (st : QuotationMap) (idx : Nat) (line : LineResult)
    (activeId : Option Str) : ℤ :=
  match activeId with
  | some pid =>
    match lookupA pid (st idx) with
    | some v => if v = 0 then line.detectedQuantity else v
    | none => line.detectedQuantity
  | none => line.detectedQuantity

/-- Embeds `result.products.find(prod => prod.id === activeId)` (App.tsx 309). -/
def effectiveProduct (line : LineResult) (activeId : Option Str) :
    Option ScoredProduct :=
  match activeId with
  | some pid => line.products.find? fun prod => decide (prod.product.id = pid)
  | none => none

/-- Embeds `(p?.price || 0)` (App.tsx 311). -/
def priceOrZero (p : Option ScoredProduct) : ℤ :=
  match p with
  | some sp =>
    match sp.product.price with
    | some v => v
    | none => 0
  | none => 0

/-- One line's contribution to the reduce in `grandTotal` (App.tsx 306–311). -/
def lineTotal (st : QuotationMap) (idx : Nat) (line : LineResult) : ℤ :=
  let activeId := effectiveActiveId st idx line
  priceOrZero (effectiveProduct line activeId) *
    effectiveQty st idx line activeId

/-- Embeds `filteredResults` (App.tsx 297–303); `none` is the
`'Todos os fornecedores'` choice. -/
def filterBySupplier (filt : Option Str) (lines : List LineResult) :
    List LineResult :=
  match filt with
  | none => lines
  | some s => lines.map fun ln =>
      { ln with products := ln.products.filter fun p =>
          decide (p.product.supplier = s) }

/-- Embeds `grandTotal` (App.tsx 305–313), over the (possibly supplier-filtered)
line results. -/
def grandTotal (st : QuotationMap) (lines : List LineResult) : ℤ :=
  (lines.enum.map fun e => lineTotal st e.1 e.2).sum

/-- The status classification of a line (App.tsx 323 in `handleExportCSV`,
identical to the table badge logic at 464/513–522):
`p && exact ? 'Exato' : (p ? 'Similar' : 'Não Encontrado')`. -/
inductive MatchClass
  | Exact
  | Similar
  | NotFound
deriving DecidableEq, Repr

def classifyLine (st : QuotationMap) (idx : Nat) (line : LineResult) :
    MatchClass :=
  match effectiveProduct line (effectiveActiveId st idx line) with
  | some sp =>
    if normalizeText line.term = normalizeText sp.product.title then .Exact
    else .Similar
  | none => .NotFound

/-- The quotation-selection states reachable inside one search session:
the reset at the start of `handleSearch` (App.tsx 236), the auto-filled
state after the search (250–252), and any sequence of quantity changes
(290–295) and selection toggles (539–543). -/
inductive ReachableQuotation (catalog : List MappedProduct)
    (items : List ExtractedItem) : QuotationMap → Prop
  | reset : ReachableQuotation catalog items (fun _ => [])
  | searched : ReachableQuotation catalog items (initialQuotation catalog items)
  | quantityChanged {st : QuotationMap} (i : Nat) (pid : Str) (q : ℤ) :
      ReachableQuotation catalog items st →
      ReachableQuotation catalog items (handleQuantityChange st i pid q)
  | toggled {st : QuotationMap} (i : Nat) (pid : Str) (dq : ℤ) :
      ReachableQuotation catalog items st →
      ReachableQuotation catalog items (toggleSelect st i pid dq)

/-! ## External item extractor (`extractShoppingItems`, geminiService.ts 46–86) -/

/-- Outcome of the external language-model call: a parsed item list
(`response.text` present), a response with no text, or a thrown error. -/
inductive ExtractOutcome
  | ok (items : List ExtractedItem)
  | noText
  | failure
deriving DecidableEq, Repr

/-- The local fallback (geminiService.ts 81 and 84):
`text.split(/[\n,]+/).map(s => ({name: s.trim(), quantity: 1}))
     .filter(s => s.name.length > 0)`. -/
def fallbackExtract (text : Str) : List ExtractedItem :=
  ((jsSplitRuns text).map fun s =>
    ExtractedItem.mk (jsTrim s) 1).filter fun it =>
      decide (it.name.length > 0)

/-- Embeds `extractShoppingItems` (geminiService.ts 46–86) as a total function of
the external outcome: the `try/catch` turns both failure modes into the
local fallback, so no failure escapes to the caller. -/
def extractShoppingItems (outcome : ExtractOutcome) (text : Str) :
    List ExtractedItem :=
  match outcome with
  | .ok items => items
  | .noText => fallbackExtract text
  | .failure => fallbackExtract text

/-! ## Lemmas about the stable descending sort -/

/-- Descending order by `matchScore`. -/
def SortedDesc (l : List ScoredProduct) : Prop :=
  List.Pairwise (fun a b => b.matchScore ≤ a.matchScore) l

theorem mem_insertDesc {x a : ScoredProduct} :
    ∀ {l : List ScoredProduct}, x ∈ insertDesc a l ↔ x = a ∨ x ∈ l := by
  intro l
  induction l with
  | nil => simp [insertDesc]
  | cons b t ih =>
    unfold insertDesc
    by_cases hb : b.matchScore < a.matchScore
    · simp only [if_pos hb, List.mem_cons]
    · simp only [if_neg hb, List.mem_cons, ih]
      tauto

theorem insertDesc_perm (a : ScoredProduct) :
    ∀ l : List ScoredProduct, (insertDesc a l).Perm (a :: l) := by
  intro l
  induction l with
  | nil => simp [insertDesc]
  | cons b t ih =>
    unfold insertDesc
    by_cases hb : b.matchScore < a.matchScore
    · simp [hb]
    · simp only [if_neg hb]
      exact (ih.cons b).trans (List.Perm.swap a b t)

theorem insertDesc_sorted {a : ScoredProduct} :
    ∀ {l : List ScoredProduct}, SortedDesc l → SortedDesc (insertDesc a l) := by
  intro l
  induction l with
  | nil => intro _; simp [insertDesc, SortedDesc]
  | cons b t ih =>
    intro h
    have hbt := (List.pairwise_cons.mp h).1
    have ht := (List.pairwise_cons.mp h).2
    unfold insertDesc
    by_cases hb : b.matchScore < a.matchScore
    · rw [if_pos hb]
      refine List.pairwise_cons.mpr ⟨?_, h⟩
      intro x hx
      rcases List.mem_cons.mp hx with hx | hx
      · subst hx; exact le_of_lt hb
      · exact le_trans (hbt x hx) (le_of_lt hb)
    · rw [if_neg hb]
      refine List.pairwise_cons.mpr ⟨?_, ih ht⟩
      intro x hx
      rcases mem_insertDesc.mp hx with hx | hx
      · subst hx; exact le_of_not_lt hb
      · exact hbt x hx

theorem sortFold_perm :
    ∀ (l acc : List ScoredProduct),
      (l.foldl (fun acc a => insertDesc a acc) acc).Perm (acc ++ l) := by
  intro l
  induction l with
  | nil => intro acc; simp
  | cons a t ih =>
    intro acc
    have h0 : (a :: t).foldl (fun acc a => insertDesc a acc) acc
        = t.foldl (fun acc a => insertDesc a acc) (insertDesc a acc) := rfl
    rw [h0]
    refine (ih (insertDesc a acc)).trans ?_
    have h1 : (insertDesc a acc).Perm (acc ++ [a]) :=
      (insertDesc_perm a acc).trans (List.perm_append_singleton a acc).symm
    refine (List.Perm.append_right t h1).trans ?_
    simp [List.append_assoc]

theorem sortByScoreDesc_perm (l : List ScoredProduct) :
    (sortByScoreDesc l).Perm l := by
  simpa using sortFold_perm l []

theorem sortFold_sorted :
    ∀ (l acc : List ScoredProduct), SortedDesc acc →
      SortedDesc (l.foldl (fun acc a => insertDesc a acc) acc) := by
  intro l
  induction l with
  | nil => intro acc h; exact h
  | cons a t ih => intro acc h; exact ih _ (insertDesc_sorted h)

theorem sortByScoreDesc_sorted (l : List ScoredProduct) :
    SortedDesc (sortByScoreDesc l) :=
  sortFold_sorted l [] (by simp [SortedDesc])

/-- Stability of one insertion into a sorted accumulator: among candidates of
one fixed score, the new element lands last. -/
theorem filter_insertDesc {q : ℤ} {a : ScoredProduct} :
    ∀ {l : List ScoredProduct}, SortedDesc l →
      (insertDesc a l).filter (fun s => decide (s.matchScore = q)) =
        (if a.matchScore = q then
          l.filter (fun s => decide (s.matchScore = q)) ++ [a]
        else l.filter (fun s => decide (s.matchScore = q))) := by
  intro l
  induction l with
  | nil =>
    intro _
    by_cases ha : a.matchScore = q <;> simp [insertDesc, ha]
  | cons b t ih =>
    intro h
    have hbt := (List.pairwise_cons.mp h).1
    have ht := (List.pairwise_cons.mp h).2
    unfold insertDesc
    by_cases hb : b.matchScore < a.matchScore
    · rw [if_pos hb]
      by_cases ha : a.matchScore = q
      · rw [if_pos ha]
        have hempty : (b :: t).filter (fun s => decide (s.matchScore = q)) = [] := by
          rw [List.filter_eq_nil_iff]
          intro x hx
          have hxle : x.matchScore ≤ b.matchScore := by
            rcases List.mem_cons.mp hx with hx | hx
            · subst hx; exact le_refl _
            · exact hbt x hx
          simp only [decide_eq_true_eq]
          intro hxq
          rw [hxq, ← ha] at hxle
          exact absurd hb (not_lt_of_le hxle)
        rw [List.filter_cons_of_pos (by simp [ha]), hempty]
        rfl
      · rw [if_neg ha]
        rw [List.filter_cons_of_neg (by simp [ha])]
    · rw [if_neg hb]
      have hX := ih ht
      by_cases hbq : b.matchScore = q
      · by_cases ha : a.matchScore = q
        · rw [if_pos ha] at hX ⊢
          rw [List.filter_cons_of_pos (by simp [hbq]), hX,
              List.filter_cons_of_pos (by simp [hbq]), List.cons_append]
        · rw [if_neg ha] at hX ⊢
          rw [List.filter_cons_of_pos (by simp [hbq]), hX,
              List.filter_cons_of_pos (by simp [hbq])]
      · by_cases ha : a.matchScore = q
        · rw [if_pos ha] at hX ⊢
          rw [List.filter_cons_of_neg (by simp [hbq]), hX,
              List.filter_cons_of_neg (by simp [hbq])]
        · rw [if_neg ha] at hX ⊢
          rw [List.filter_cons_of_neg (by simp [hbq]), hX,
              List.filter_cons_of_neg (by simp [hbq])]

theorem sortFold_filter {q : ℤ} :
    ∀ (l acc : List ScoredProduct), SortedDesc acc →
      (l.foldl (fun acc a => insertDesc a acc) acc).filter
          (fun s => decide (s.matchScore = q)) =
        acc.filter (fun s => decide (s.matchScore = q)) ++
          l.filter (fun s => decide (s.matchScore = q)) := by
  intro l
  induction l with
  | nil => intro acc h; simp
  | cons a t ih =>
    intro acc h
    have h0 : (a :: t).foldl (fun acc a => insertDesc a acc) acc
        = t.foldl (fun acc a => insertDesc a acc) (insertDesc a acc) := rfl
    rw [h0, ih (insertDesc a acc) (insertDesc_sorted h), filter_insertDesc h]
    by_cases ha : a.matchScore = q
    · rw [if_pos ha, List.filter_cons_of_pos (by simp [ha])]
      simp
    · rw [if_neg ha, List.filter_cons_of_neg (by simp [ha])]

/-- Full stability: the equal-score subsequences of the sort output and of
its input coincide. -/
theorem sortByScoreDesc_filter (q : ℤ) (l : List ScoredProduct) :
    (sortByScoreDesc l).filter (fun s => decide (s.matchScore = q)) =
      l.filter (fun s => decide (s.matchScore = q)) := by
  simpa using sortFold_filter l [] (by simp [SortedDesc])

/-- Claim C2:  The per-term candidate list built by `handleSearch`
(App.tsx 244–248) has at most 15 entries, is sorted by non-increasing
score, contains no entry with score ≤ 0, and is stable: for every score
value, its candidates with that score form (in order) an initial segment of
the catalog-ordered positive-score candidates with that score. -/
theorem rank_shape (catalog : List MappedProduct) (query : Str) :
    (rank catalog query).length ≤ 15 ∧
    List.Pairwise (fun a b => b.matchScore ≤ a.matchScore) (rank catalog query) ∧
    (∀ s ∈ rank catalog query, 0 < s.matchScore) ∧
    ∀ q : ℤ, (rank catalog query).filter (fun s => decide (s.matchScore = q)) <+:
      (scoredCandidates catalog query).filter (fun s => decide (s.matchScore = q)) := by
  refine ⟨?_, ?_, ?_, ?_⟩
  · exact List.length_take_le 15 _
  · exact (sortByScoreDesc_sorted _).sublist (List.take_sublist _ _)
  · intro s hs
    have hmem : s ∈ sortByScoreDesc (scoredCandidates catalog query) :=
      (List.take_sublist _ _).mem hs
    have hmem2 : s ∈ scoredCandidates catalog query :=
      (sortByScoreDesc_perm _).subset hmem
    have := (List.mem_filter.mp hmem2).2
    simpa using this
  · intro q
    have h1 : rank catalog query <+:
        sortByScoreDesc (scoredCandidates catalog query) :=
      List.take_prefix _ _
    have h2 := List.IsPrefix.filter (fun s => decide (s.matchScore = q)) h1
    rw [sortByScoreDesc_filter] at h2
    exact h2

/-! ## Witness fixtures (sample catalog data used by concrete instances) -/

def sampleVolkmann : MappedProduct :=
  MappedProduct.mk "prod-0-1700000000000".data "Afastador Volkmann 16cm".data
    "A100".data (some 4250) "Fornecedor Direto".data

def sampleCabo : MappedProduct :=
  MappedProduct.mk "prod-1-1700000000000".data "Cabo para Bisturi n3".data
    "A101".data (some 1500) "Fornecedor Direto".data

def sampleCatalog : List MappedProduct := [sampleVolkmann, sampleCabo]

def sampleItems : List ExtractedItem :=
  [ExtractedItem.mk "afastador volkmann".data 2, ExtractedItem.mk "zzz".data 3]

/-! ## C7: extraction failure falls back to the local split -/

/-- Claim C7:  When the external item-extraction call fails (throws) or yields
no text, `extractShoppingItems` (geminiService.ts 46–86) returns exactly the
local fallback — the raw text split on `[\n,]+`, each piece trimmed, every
non-empty piece becoming an item with quantity 1 — and, being a total
function of the outcome, propagates no failure to the caller. -/
theorem extract_failure_falls_back (text : Str) :
    extractShoppingItems ExtractOutcome.failure text = fallbackExtract text ∧
    extractShoppingItems ExtractOutcome.noText text = fallbackExtract text ∧
    ∀ it ∈ fallbackExtract text,
      it.quantity = 1 ∧ it.name.length > 0 ∧
      ∃ piece ∈ jsSplitRuns text, it.name = jsTrim piece := by
  refine ⟨rfl, rfl, ?_⟩
  intro it hit
  unfold fallbackExtract at hit
  rw [List.mem_filter] at hit
  obtain ⟨hm, hlen⟩ := hit
  rcases List.mem_map.mp hm with ⟨s, hs, hmk⟩
  refine ⟨?_, ?_, s, hs, ?_⟩
  · rw [← hmk]
  · simpa using hlen
  · rw [← hmk]

theorem extract_failure_falls_back_witness :
    extractShoppingItems ExtractOutcome.failure "pinca kelly, 2\ntesoura".data =
      fallbackExtract "pinca kelly, 2\ntesoura".data ∧
    (ExtractedItem.mk "pinca kelly".data 1).quantity = 1 ∧
    (ExtractedItem.mk "pinca kelly".data 1).name.length > 0 :=
  ⟨(extract_failure_falls_back ("pinca kelly, 2\ntesoura".data)).1,
   ((extract_failure_falls_back ("pinca kelly, 2\ntesoura".data)).2.2
      (ExtractedItem.mk "pinca kelly".data 1) (by decide)).1,
   ((extract_failure_falls_back ("pinca kelly, 2\ntesoura".data)).2.2
      (ExtractedItem.mk "pinca kelly".data 1) (by decide)).2.1⟩

/-! ## C5: explicit overrides are clamped and win over the default -/

/-- Claim C5:  For every line index, product id and integer quantity —
including zero and negative — `handleQuantityChange` (App.tsx 290–295)
stores the single entry `(p, max 1 q)`, and the effective selection of that
line resolves to `p` with quantity `max 1 q` (not to the default top
candidate); the call is never rejected.  The hypothesis `p ≠ ""` reflects
that every product id the UI can pass is of the non-empty form
`prod-<index>-<timestamp>` (csvService.ts 155). -/
theorem override_effective (st : QuotationMap) (i : Nat) (line : LineResult)
    (p : Str) (q : ℤ) (hp : p ≠ []) :
    (handleQuantityChange st i p q) i = [(p, max 1 q)] ∧
    effectiveActiveId (handleQuantityChange st i p q) i line = some p ∧
    effectiveQty (handleQuantityChange st i p q) i line
      (effectiveActiveId (handleQuantityChange st i p q) i line) = max 1 q := by
  have hst : (handleQuantityChange st i p q) i = [(p, max 1 q)] := by
    unfold handleQuantityChange
    simp
  have hid : effectiveActiveId (handleQuantityChange st i p q) i line = some p := by
    unfold effectiveActiveId
    rw [hst]
    simp [hp]
  refine ⟨hst, hid, ?_⟩
  rw [hid]
  unfold effectiveQty
  rw [hst]
  have hq : ¬ (max 1 q = 0) := by
    intro h0
    have : (1 : ℤ) ≤ max 1 q := le_max_left 1 q
    omega
  simp [lookupA, hq]

theorem override_effective_witness :
    (handleQuantityChange (fun _ => []) 0 "prod-9-1".data (-5)) 0 =
      [("prod-9-1".data, max 1 (-5))] ∧
    effectiveActiveId (handleQuantityChange (fun _ => []) 0 "prod-9-1".data (-5)) 0
      (LineResult.mk "x".data [] 1) = some "prod-9-1".data ∧
    effectiveQty (handleQuantityChange (fun _ => []) 0 "prod-9-1".data (-5)) 0
      (LineResult.mk "x".data [] 1)
      (effectiveActiveId (handleQuantityChange (fun _ => []) 0 "prod-9-1".data (-5)) 0
        (LineResult.mk "x".data [] 1)) = max 1 (-5) :=
  override_effective (fun _ => []) 0 (LineResult.mk "x".data [] 1)
    ("prod-9-1".data) (-5) (by decide)

/-! ## C6: the selection state is single-select -/

/-- Claim C6:  Every reachable quotation-selection state maps each line index
to at most one (product id, quantity) entry: the search reset is empty, the
auto-fill after a search stores only the top candidate of lines that have
one (App.tsx 250–252), and every quantity change or toggle replaces the
line's record with a singleton (App.tsx 290–295, 539–543). -/
theorem quotation_single_select {catalog : List MappedProduct}
    {items : List ExtractedItem} {st : QuotationMap}
    (h : ReachableQuotation catalog items st) : ∀ i, (st i).length ≤ 1 := by
  induction h with
  | reset => intro i; simp
  | searched =>
    intro i
    unfold initialQuotation
    split
    · split
      · simp
      · simp
    · simp
  | quantityChanged i pid q hst ih =>
    intro j
    unfold handleQuantityChange
    by_cases hj : j = i
    · simp [hj]
    · simp only [if_neg hj]
      exact ih j
  | toggled i pid dq hst ih =>
    intro j
    unfold toggleSelect
    by_cases hj : j = i
    · simp [hj]
    · simp only [if_neg hj]
      exact ih j

theorem quotation_single_select_witness :
    ((handleQuantityChange (initialQuotation sampleCatalog sampleItems) 0
      "prod-9-1".data 7) 0).length ≤ 1 :=
  quotation_single_select
    (ReachableQuotation.quantityChanged 0 ("prod-9-1".data) 7
      ReachableQuotation.searched) 0

def sampleMayo : MappedProduct :=
  MappedProduct.mk "prod-2-1700000000000".data "Mayo".data "A102".data
    (some 900) "Fornecedor Direto".data

/-- Decomposition of the App.tsx scorer into its four accumulated
components (valid whenever the query has at least one token). -/
theorem calculateMatchScore_decomp (product : MappedProduct) (query : Str)
    (hne : (queryTokensOf query).length ≠ 0) :
    calculateMatchScore product query =
      (if allImportantTokensPresent (queryTokensOf query)
          (normalizeText product.title) then (60000 : ℤ) else 0) +
      tokenMatchSum (queryTokensOf query)
        (jsSplitSpace (normalizeText product.title)) +
      anchorScore (queryTokensOf query)
        (jsSplitSpace (normalizeText product.title)) -
      (if accessoryPenaltyApplies (queryTokensOf query)
          (jsSplitSpace (normalizeText product.title)) then (30000 : ℤ)
        else 0) := by
  simp only [calculateMatchScore]
  rw [if_neg hne]
  by_cases hpen : accessoryPenaltyApplies (queryTokensOf query)
      (jsSplitSpace (normalizeText product.title)) = true
  · rw [if_pos hpen, if_pos hpen]
  · rw [if_neg hpen, if_neg hpen]
    omega

/-! ## C3: the two scoring-policy variants diverge exactly at the anchor
rejection -/

/-- Claim C3:  (i) The stricter part_001 scorer returns the negative sentinel
`-1` for every multi-token query whose anchor (with its synonyms) neither
starts nor occurs among the title words (part_001 74–76).  (ii) The looser
App.tsx scorer has no such rejection: for every non-empty query it returns
the plain weighted accumulation — completeness bonus + weighted token sum +
anchor bonus − accessory penalty.  (iii) On single-token queries the
stricter scorer never applies the rejection: it coincides with its own
rejection-free accumulation. -/
theorem scoring_variants_diverge (product : MappedProduct) (query : Str) :
    ((queryTokensOf query).length > 1 →
      anchorStartsV1
          (synonymsOf medicalThesaurusV1 ((queryTokensOf query).headD []))
          (jsSplitSpace (normalizeText product.title)) = false →
      anchorContainsV1
          (synonymsOf medicalThesaurusV1 ((queryTokensOf query).headD []))
          (jsSplitSpace (normalizeText product.title)) = false →
      calculateMatchScoreV1 product query = -1 ∧
        calculateMatchScoreV1 product query < 0) ∧
    ((queryTokensOf query).length ≠ 0 →
      calculateMatchScore product query =
        (if allImportantTokensPresent (queryTokensOf query)
            (normalizeText product.title) then (60000 : ℤ) else 0) +
        tokenMatchSum (queryTokensOf query)
          (jsSplitSpace (normalizeText product.title)) +
        anchorScore (queryTokensOf query)
          (jsSplitSpace (normalizeText product.title)) -
        (if accessoryPenaltyApplies (queryTokensOf query)
            (jsSplitSpace (normalizeText product.title)) then (30000 : ℤ)
          else 0)) ∧
    ((queryTokensOf query).length = 1 →
      calculateMatchScoreV1 product query =
        calculateMatchScoreV1NoReject product query) := by
  refine ⟨?_, ?_, ?_⟩
  · intro hlen hstart hcontain
    have hne : ¬((queryTokensOf query).length = 0) := by omega
    have hv : calculateMatchScoreV1 product query = -1 := by
      simp only [calculateMatchScoreV1, hstart, hcontain]
      rw [if_neg hne]
      simp only [Bool.false_eq_true, if_false]
      rw [if_pos hlen]
    exact ⟨hv, by rw [hv]; norm_num⟩
  · intro hne
    exact calculateMatchScore_decomp product query hne
  · intro hlen
    have hne : ¬((queryTokensOf query).length = 0) := by omega
    have hnot : ¬((queryTokensOf query).length > 1) := by omega
    simp only [calculateMatchScoreV1, calculateMatchScoreV1NoReject]
    rw [if_neg hne, if_neg hne]
    by_cases hs : anchorStartsV1
        (synonymsOf medicalThesaurusV1 ((queryTokensOf query).headD []))
        (jsSplitSpace (normalizeText product.title)) = true
    · rw [if_pos hs, if_pos hs]
    · rw [if_neg hs, if_neg hs]
      by_cases hc : anchorContainsV1
          (synonymsOf medicalThesaurusV1 ((queryTokensOf query).headD []))
          (jsSplitSpace (normalizeText product.title)) = true
      · rw [if_pos hc, if_pos hc]
      · rw [if_neg hc, if_neg hc, if_neg hnot]

theorem scoring_variants_diverge_witness :
    (calculateMatchScoreV1 sampleMayo "kely zz".data = -1 ∧
      calculateMatchScoreV1 sampleMayo "kely zz".data < 0) ∧
    calculateMatchScore sampleMayo "kely zz".data =
      (if allImportantTokensPresent (queryTokensOf ("kely zz".data))
          (normalizeText sampleMayo.title) then (60000 : ℤ) else 0) +
      tokenMatchSum (queryTokensOf ("kely zz".data))
        (jsSplitSpace (normalizeText sampleMayo.title)) +
      anchorScore (queryTokensOf ("kely zz".data))
        (jsSplitSpace (normalizeText sampleMayo.title)) -
      (if accessoryPenaltyApplies (queryTokensOf ("kely zz".data))
          (jsSplitSpace (normalizeText sampleMayo.title)) then (30000 : ℤ)
        else 0) ∧
    calculateMatchScoreV1 sampleMayo "kely".data =
      calculateMatchScoreV1NoReject sampleMayo "kely".data :=
  ⟨(scoring_variants_diverge sampleMayo ("kely zz".data)).1
      (by decide) (by decide) (by decide),
   (scoring_variants_diverge sampleMayo ("kely zz".data)).2.1 (by decide),
   (scoring_variants_diverge sampleMayo ("kely".data)).2.2 (by decide)⟩

/-! ## Bounds on the App.tsx scorer components -/

theorem tokenQualityStep_ge (qt : Str) (w best : ℤ) (pt : Str) :
    best ≤ tokenQualityStep qt w best pt := by
  simp only [tokenQualityStep]
  split_ifs <;> omega

theorem tokenQualityStep_le_ten (qt : Str) (w : ℤ) {best : ℤ}
    (h : best ≤ 10) (pt : Str) : tokenQualityStep qt w best pt ≤ 10 := by
  simp only [tokenQualityStep]
  have hd : (0 : ℤ) ≤ (levenshtein qt pt : ℤ) := Int.natCast_nonneg _
  split_ifs <;> omega

theorem bestTokenScore_ge_init (qt : Str) (w : ℤ) :
    ∀ (pts : List Str) (best : ℤ),
      best ≤ pts.foldl (tokenQualityStep qt w) best := by
  intro pts
  induction pts with
  | nil => intro best; exact le_refl _
  | cons p rest ih =>
    intro best
    exact le_trans (tokenQualityStep_ge qt w best p) (ih _)

theorem bestTokenScore_nonneg (qt : Str) (w : ℤ) (pts : List Str) :
    0 ≤ bestTokenScore qt w pts :=
  bestTokenScore_ge_init qt w pts 0

theorem bestTokenScore_le_ten (qt : Str) (w : ℤ) (pts : List Str) :
    bestTokenScore qt w pts ≤ 10 := by
  unfold bestTokenScore
  have : ∀ (pts : List Str) (best : ℤ), best ≤ 10 →
      pts.foldl (tokenQualityStep qt w) best ≤ 10 := by
    intro pts
    induction pts with
    | nil => intro best h; exact h
    | cons p rest ih =>
      intro best h
      exact ih _ (tokenQualityStep_le_ten qt w h p)
  exact this pts 0 (by norm_num)

theorem tokenWeight_nonneg (t : Str) : 0 ≤ tokenWeight t := by
  unfold tokenWeight
  split_ifs <;> norm_num

theorem tokenMatchSum_nonneg (qts pts : List Str) :
    0 ≤ tokenMatchSum qts pts := by
  unfold tokenMatchSum
  apply List.sum_nonneg
  intro x hx
  rcases List.mem_map.mp hx with ⟨t, _, ht⟩
  rw [← ht]
  simp only []
  by_cases hb : bestTokenScore t (tokenWeight t) pts > 0
  · rw [if_pos hb]
    exact mul_nonneg (le_of_lt hb) (tokenWeight_nonneg t)
  · rw [if_neg hb]

/-- Per-token contribution is at most `10 × weight` (quality 1.0 at most). -/
theorem tokenMatchSum_le (qts pts : List Str) :
    tokenMatchSum qts pts ≤ (qts.map fun t => 10 * tokenWeight t).sum := by
  unfold tokenMatchSum
  apply List.sum_le_sum
  intro t _
  simp only []
  by_cases hb : bestTokenScore t (tokenWeight t) pts > 0
  · rw [if_pos hb]
    exact mul_le_mul_of_nonneg_right (bestTokenScore_le_ten t (tokenWeight t) pts)
      (tokenWeight_nonneg t)
  · rw [if_neg hb]
    have hw := tokenWeight_nonneg t
    omega

theorem anchorScore_nonneg (qts pts : List Str) : 0 ≤ anchorScore qts pts := by
  simp only [anchorScore]
  split <;> norm_num

theorem anchorScore_le (qts pts : List Str) : anchorScore qts pts ≤ 20000 := by
  simp only [anchorScore]
  split <;> norm_num

/-- The completeness gate passes vacuously when every token is a stop word. -/
theorem gate_of_all_stop {qts : List Str} (title : Str)
    (h : ∀ t ∈ qts, t ∈ STOP_WORDS) :
    allImportantTokensPresent qts title = true := by
  unfold allImportantTokensPresent
  rw [List.all_eq_true]
  intro t ht
  rw [if_pos (h t ht)]

/-! ## C10: an all-stop-word query matches the entire catalog -/

/-- Claim C10:  For a non-empty query all of whose normalized tokens are stop
words, the completeness gate passes vacuously (+6000, here ×10 = 60000) for
every catalog item; every other contribution is non-negative except the
accessory penalty (3000, ×10 = 30000), so every item scores at least
3000 (×10 = 30000) — strictly positive — and `rank` keeps
`min(catalog size, 15)` candidates. -/
theorem stop_word_query_scores (catalog : List MappedProduct) (query : Str)
    (hne : (queryTokensOf query).length ≠ 0)
    (hstop : ∀ t ∈ queryTokensOf query, t ∈ STOP_WORDS) :
    (∀ p ∈ catalog,
      allImportantTokensPresent (queryTokensOf query)
        (normalizeText p.title) = true ∧
      30000 ≤ calculateMatchScore p query ∧
      0 < calculateMatchScore p query) ∧
    (rank catalog query).length = min catalog.length 15 := by
  have hscore : ∀ p : MappedProduct, 30000 ≤ calculateMatchScore p query := by
    intro p
    have hgate := gate_of_all_stop (normalizeText p.title) hstop
    have hts := tokenMatchSum_nonneg (queryTokensOf query)
      (jsSplitSpace (normalizeText p.title))
    have has := anchorScore_nonneg (queryTokensOf query)
      (jsSplitSpace (normalizeText p.title))
    have hd := calculateMatchScore_decomp p query hne
    rw [if_pos hgate] at hd
    rw [hd]
    by_cases hpen : accessoryPenaltyApplies (queryTokensOf query)
        (jsSplitSpace (normalizeText p.title)) = true
    · rw [if_pos hpen]; omega
    · rw [if_neg hpen]; omega
  constructor
  · intro p hp
    exact ⟨gate_of_all_stop _ hstop, hscore p, lt_of_lt_of_le (by norm_num) (hscore p)⟩
  · have hall : scoredCandidates catalog query =
        catalog.map fun p => ScoredProduct.mk p (calculateMatchScore p query) := by
      unfold scoredCandidates
      rw [List.filter_eq_self]
      intro s hs
      rcases List.mem_map.mp hs with ⟨p, _, hp⟩
      rw [← hp]
      simp only [decide_eq_true_eq]
      exact lt_of_lt_of_le (by norm_num) (hscore p)
    unfold rank
    rw [List.length_take, hall,
      (sortByScoreDesc_perm _).length_eq, List.length_map, Nat.min_comm]

theorem stop_word_query_scores_witness :
    (∀ p ∈ sampleCatalog,
      allImportantTokensPresent (queryTokensOf ("de com".data))
        (normalizeText p.title) = true ∧
      30000 ≤ calculateMatchScore p ("de com".data) ∧
      0 < calculateMatchScore p ("de com".data)) ∧
    (rank sampleCatalog ("de com".data)).length = min sampleCatalog.length 15 :=
  stop_word_query_scores sampleCatalog ("de com".data) (by decide) (by decide)

/-! ## C4: a two-term quotation with one unmatched term -/

/-- Claim C4:  For a quotation over exactly two terms where only the first has
candidates and no override is made, the grand total is the first line's top
candidate price times the first term's quantity, and the second line is
classified NotFound (App.tsx 243–259, 305–313, 323). -/
theorem two_term_quotation (catalog : List MappedProduct) (t1 t2 : Str)
    (q1 q2 : ℤ) (top : ScoredProduct) (rest : List ScoredProduct)
    (h1 : rank catalog t1 = top :: rest)
    (h2 : rank catalog t2 = [])
    (hid : top.product.id ≠ [])
    (pr : ℤ) (hpr : top.product.price = some pr) :
    grandTotal
        (initialQuotation catalog
          [ExtractedItem.mk t1 q1, ExtractedItem.mk t2 q2])
        (buildQuotation catalog
          [ExtractedItem.mk t1 q1, ExtractedItem.mk t2 q2]) = pr * q1 ∧
    classifyLine
        (initialQuotation catalog
          [ExtractedItem.mk t1 q1, ExtractedItem.mk t2 q2])
        1 (LineResult.mk t2 (rank catalog t2) q2) = MatchClass.NotFound := by
  have hlines : buildQuotation catalog
      [ExtractedItem.mk t1 q1, ExtractedItem.mk t2 q2] =
      [LineResult.mk t1 (top :: rest) q1, LineResult.mk t2 [] q2] := by
    simp [buildQuotation, h1, h2]
  have hst0 : initialQuotation catalog
      [ExtractedItem.mk t1 q1, ExtractedItem.mk t2 q2] 0 =
      [(top.product.id, q1)] := by
    unfold initialQuotation
    rw [hlines]
    rfl
  have hst1 : initialQuotation catalog
      [ExtractedItem.mk t1 q1, ExtractedItem.mk t2 q2] 1 = [] := by
    unfold initialQuotation
    rw [hlines]
    rfl
  have hline1 : lineTotal
      (initialQuotation catalog
        [ExtractedItem.mk t1 q1, ExtractedItem.mk t2 q2]) 0
      (LineResult.mk t1 (top :: rest) q1) = pr * q1 := by
    unfold lineTotal
    have hact : effectiveActiveId
        (initialQuotation catalog
          [ExtractedItem.mk t1 q1, ExtractedItem.mk t2 q2]) 0
        (LineResult.mk t1 (top :: rest) q1) = some top.product.id := by
      unfold effectiveActiveId
      rw [hst0]
      simp [hid]
    have hfind : effectiveProduct (LineResult.mk t1 (top :: rest) q1)
        (some top.product.id) = some top := by
      unfold effectiveProduct
      simp [List.find?_cons_of_pos]
    have hqty : effectiveQty
        (initialQuotation catalog
          [ExtractedItem.mk t1 q1, ExtractedItem.mk t2 q2]) 0
        (LineResult.mk t1 (top :: rest) q1) (some top.product.id) = q1 := by
      unfold effectiveQty
      rw [hst0]
      by_cases hq : q1 = 0
      · simp [lookupA, hq]
      · simp [lookupA, hq]
    simp only [hact, hfind, hqty, priceOrZero, hpr]
  have hline2 : lineTotal
      (initialQuotation catalog
        [ExtractedItem.mk t1 q1, ExtractedItem.mk t2 q2]) 1
      (LineResult.mk t2 [] q2) = 0 := by
    have hact : effectiveActiveId
        (initialQuotation catalog
          [ExtractedItem.mk t1 q1, ExtractedItem.mk t2 q2]) 1
        (LineResult.mk t2 [] q2) = none := by
      unfold effectiveActiveId
      rw [hst1]
      rfl
    simp only [lineTotal, hact, effectiveProduct, priceOrZero]
    exact Int.zero_mul _
  constructor
  · unfold grandTotal
    rw [hlines]
    simp only [List.enum, List.enumFrom, List.map_cons, List.map_nil,
      List.sum_cons, List.sum_nil]
    rw [hline1, hline2]
    omega
  · unfold classifyLine
    have hact : effectiveActiveId
        (initialQuotation catalog
          [ExtractedItem.mk t1 q1, ExtractedItem.mk t2 q2]) 1
        (LineResult.mk t2 (rank catalog t2) q2) = none := by
      unfold effectiveActiveId
      rw [hst1, h2]
      rfl
    rw [hact]
    rfl

theorem two_term_quotation_witness :
    grandTotal
        (initialQuotation sampleCatalog
          [ExtractedItem.mk "afastador volkmann".data 2,
           ExtractedItem.mk "zzz".data 3])
        (buildQuotation sampleCatalog
          [ExtractedItem.mk "afastador volkmann".data 2,
           ExtractedItem.mk "zzz".data 3]) = 4250 * 2 ∧
    classifyLine
        (initialQuotation sampleCatalog
          [ExtractedItem.mk "afastador volkmann".data 2,
           ExtractedItem.mk "zzz".data 3])
        1 (LineResult.mk "zzz".data (rank sampleCatalog "zzz".data) 3) =
      MatchClass.NotFound :=
  two_term_quotation sampleCatalog ("afastador volkmann".data) ("zzz".data)
    2 3 (ScoredProduct.mk sampleVolkmann 150000) [] (by decide) (by decide)
    (by decide) 4250 (by decide)

/-! ## C1: exact-title queries and the top of the ranking -/

/-- On a normalizer output (no double spaces, none at either end), every
piece of `split(" ")` is non-empty. -/
theorem jsSplitSpace_all_ne_nil :
    ∀ (s : List Char), s ≠ [] → NoDbl s →
      (∀ a, s.head? = some a → a ≠ ' ') →
      (∀ a, s.getLast? = some a → a ≠ ' ') →
      ∀ t ∈ jsSplitSpace s, t ≠ []
  | [], hs, _, _, _ => absurd rfl hs
  | [c], _, _, hh, _ => by
    have hc : c ≠ ' ' := hh c rfl
    intro t ht
    simp only [jsSplitSpace, if_neg hc] at ht
    simp only [List.mem_singleton] at ht
    subst ht
    simp
  | a :: b :: t', _, hnd, hh, hl => by
    have ha : a ≠ ' ' := hh a rfl
    have hnd1 : List.Chain' (fun a b => ¬(a = ' ' ∧ b = ' ')) (b :: t') :=
      (List.chain'_cons.mp hnd).2
    have hlast : (b :: t').getLast? = (a :: b :: t').getLast? :=
      List.getLast?_cons_cons.symm
    intro t ht
    have hsplit : jsSplitSpace (a :: b :: t') =
        match jsSplitSpace (b :: t') with
        | u :: us => (a :: u) :: us
        | [] => [[a]] := by
      simp only [jsSplitSpace]
      rw [if_neg ha]
    by_cases hb : b = ' '
    · -- the run after `a` begins with a space: the split is `[a] :: split t'`
      have ht'ne : t' ≠ [] := by
        intro h0
        subst h0
        have := hl b (by simp)
        exact this hb
      obtain ⟨d, t'', hd⟩ : ∃ d t'', t' = d :: t'' := by
        cases t' with
        | nil => exact absurd rfl ht'ne
        | cons d t'' => exact ⟨d, t'', rfl⟩
      have hdn : d ≠ ' ' := by
        subst hd
        have := (List.chain'_cons.mp hnd1).1
        intro h0
        exact this ⟨hb, h0⟩
      have hsplitb : jsSplitSpace (b :: t') = [] :: jsSplitSpace t' := by
        simp only [jsSplitSpace, if_pos hb]
      rw [hsplit, hsplitb] at ht
      simp only [] at ht
      rcases List.mem_cons.mp ht with ht | ht
      · subst ht; simp
      · refine jsSplitSpace_all_ne_nil t' (by rw [hd]; simp) ?_ ?_ ?_ t ht
        · subst hd
          exact (List.chain'_cons.mp hnd1).2
        · intro x hx
          rw [hd] at hx
          simp only [List.head?_cons, Option.some.injEq] at hx
          subst hx
          exact hdn
        · intro x hx
          apply hl
          rw [List.getLast?_cons_cons, hd, List.getLast?_cons_cons]
          rw [hd] at hx
          exact hx
    · -- no space: the head piece of `split (b :: t')` gets `a` prepended
      cases hsb : jsSplitSpace (b :: t') with
      | nil => exact absurd hsb (jsSplitSpace_ne_nil _)
      | cons u us =>
        rw [hsplit, hsb] at ht
        simp only [] at ht
        have hrec := jsSplitSpace_all_ne_nil (b :: t') (by simp) hnd1
          (fun x hx => by simp at hx; rw [← hx]; exact hb)
          (fun x hx => hl x (by rw [← hlast]; exact hx))
        rcases List.mem_cons.mp ht with ht | ht
        · subst ht; simp
        · exact hrec t (by rw [hsb]; exact List.mem_cons_of_mem u ht)

/-- When a query has at least one token, its token list is exactly the
split of its normalized text (no empty pieces survive normalization). -/
theorem queryTokensOf_eq_split {q : Str} (hne : queryTokensOf q ≠ []) :
    queryTokensOf q = jsSplitSpace (normalizeText q) := by
  have hs : normalizeText q ≠ [] := by
    intro h0
    apply hne
    unfold queryTokensOf
    rw [h0]
    rfl
  unfold queryTokensOf
  rw [List.filter_eq_self]
  intro t ht
  have hne' := jsSplitSpace_all_ne_nil (normalizeText q) hs
    (normalizeText_noDbl q) (fun a ha => normalizeText_head ha)
    (fun a ha => normalizeText_getLast ha) t ht
  simp only [decide_eq_true_eq]
  exact List.length_pos.mpr hne'

/-- The completeness gate passes when every token occurs as a substring of
the title (in particular for an exact-title query). -/
theorem gate_of_exact {qts : List Str} {nq : Str}
    (hmem : ∀ t ∈ qts, t <:+: nq) :
    allImportantTokensPresent qts nq = true := by
  unfold allImportantTokensPresent
  rw [List.all_eq_true]
  intro t ht
  split_ifs with h1 h2
  · rfl
  · rfl
  · rw [List.any_eq_true]
    exact ⟨t, mem_synonymsOf_self medicalThesaurus_self_mem t,
      by simpa using hmem t ht⟩

theorem foldl_step_ge_ten {qt : Str} {w : ℤ} :
    ∀ (pts : List Str) (best : ℤ), qt ∈ pts →
      10 ≤ pts.foldl (tokenQualityStep qt w) best := by
  intro pts
  induction pts with
  | nil => intro best h; simp at h
  | cons p rest ih =>
    intro best h
    rcases List.mem_cons.mp h with h | h
    · subst h
      have hstep : tokenQualityStep qt w best qt = max best 10 := by
        unfold tokenQualityStep
        rw [if_pos]
        rw [List.any_eq_true]
        exact ⟨qt, mem_synonymsOf_self medicalThesaurus_self_mem qt, by simp⟩
      show 10 ≤ rest.foldl (tokenQualityStep qt w) (tokenQualityStep qt w best qt)
      rw [hstep]
      exact le_trans (le_max_right best 10) (bestTokenScore_ge_init qt w rest _)
    · exact ih _ h

theorem bestTokenScore_eq_ten {qt : Str} {w : ℤ} {pts : List Str}
    (hmem : qt ∈ pts) : bestTokenScore qt w pts = 10 :=
  le_antisymm (bestTokenScore_le_ten qt w pts)
    (foldl_step_ge_ten pts 0 hmem)

/-- On an exact-title query every token scores a perfect quality 1.0. -/
theorem tokenMatchSum_of_exact {qts pts : List Str}
    (hmem : ∀ t ∈ qts, t ∈ pts) :
    tokenMatchSum qts pts = (qts.map fun t => 10 * tokenWeight t).sum := by
  unfold tokenMatchSum
  congr 1
  apply List.map_congr_left
  intro t ht
  show (if bestTokenScore t (tokenWeight t) pts > 0 then
      bestTokenScore t (tokenWeight t) pts * tokenWeight t else 0) =
    10 * tokenWeight t
  rw [bestTokenScore_eq_ten (hmem t ht)]
  norm_num

/-- The anchor bonus is the maximal 2000 (×10 = 20000) when the title
tokens are the query tokens themselves. -/
theorem anchorScore_of_exact {a : Str} {rest : List Str} :
    anchorScore (a :: rest) (a :: rest) = 20000 := by
  simp only [anchorScore, List.headD_cons]
  have hpred : decide (a ∈ synonymsOf medicalThesaurus a) = true := by
    simp [mem_synonymsOf_self medicalThesaurus_self_mem a]
  rw [List.findIdx?_cons, if_pos hpred]

/-- The exact value of the App.tsx score of an item whose normalized title
equals the normalized query, when the accessory penalty does not hit it:
completeness bonus + full weights + top anchor bonus. -/
theorem calculateMatchScore_exact (e : MappedProduct) (q : Str)
    (hexact : normalizeText e.title = normalizeText q)
    (hne : queryTokensOf q ≠ [])
    (hpen : accessoryPenaltyApplies (queryTokensOf q)
      (jsSplitSpace (normalizeText e.title)) = false) :
    calculateMatchScore e q =
      60000 + ((queryTokensOf q).map fun t => 10 * tokenWeight t).sum + 20000 := by
  have hlen : (queryTokensOf q).length ≠ 0 := by
    simpa [List.length_eq_zero] using hne
  have hd := calculateMatchScore_decomp e q hlen
  rw [hexact, ← queryTokensOf_eq_split hne] at hd hpen
  obtain ⟨a, rest, hq⟩ : ∃ a rest, queryTokensOf q = a :: rest := by
    cases hc : queryTokensOf q with
    | nil => exact absurd hc hne
    | cons a rest => exact ⟨a, rest, rfl⟩
  have hgate : allImportantTokensPresent (queryTokensOf q)
      (normalizeText q) = true := by
    apply gate_of_exact
    intro t ht
    rw [queryTokensOf_eq_split hne] at ht
    exact mem_jsSplitSpace_infix ht
  rw [hd, if_pos hgate, hpen, tokenMatchSum_of_exact (fun t ht => ht)]
  rw [hq, anchorScore_of_exact]
  simp

/-- Global upper bound of the App.tsx score: no item can beat
completeness + full weights + top anchor. -/
theorem calculateMatchScore_le (p : MappedProduct) (q : Str) :
    calculateMatchScore p q ≤
      60000 + ((queryTokensOf q).map fun t => 10 * tokenWeight t).sum + 20000 := by
  have hsum : 0 ≤ ((queryTokensOf q).map fun t => 10 * tokenWeight t).sum := by
    apply List.sum_nonneg
    intro x hx
    rcases List.mem_map.mp hx with ⟨t, _, ht⟩
    have := tokenWeight_nonneg t
    omega
  by_cases hlen : (queryTokensOf q).length = 0
  · unfold calculateMatchScore
    rw [if_pos hlen]
    omega
  · have hd := calculateMatchScore_decomp p q hlen
    have hts := tokenMatchSum_le (queryTokensOf q)
      (jsSplitSpace (normalizeText p.title))
    have has := anchorScore_le (queryTokensOf q)
      (jsSplitSpace (normalizeText p.title))
    rw [hd]
    by_cases hpen : accessoryPenaltyApplies (queryTokensOf q)
        (jsSplitSpace (normalizeText p.title)) = true
    · rw [if_pos hpen]
      by_cases hg : allImportantTokensPresent (queryTokensOf q)
          (normalizeText p.title) = true
      · rw [if_pos hg]; omega
      · rw [if_neg hg]; omega
    · rw [if_neg hpen]
      by_cases hg : allImportantTokensPresent (queryTokensOf q)
          (normalizeText p.title) = true
      · rw [if_pos hg]; omega
      · rw [if_neg hg]; omega

/-- If some catalog member attains the maximal positive score, the ranked
list is non-empty and its head carries exactly that score. -/
theorem rank_head_of_max (catalog : List MappedProduct) (query : Str)
    (e : MappedProduct) (he : e ∈ catalog)
    (hpos : 0 < calculateMatchScore e query)
    (hmax : ∀ p ∈ catalog,
      calculateMatchScore p query ≤ calculateMatchScore e query) :
    ∃ top rest, rank catalog query = top :: rest ∧
      top.matchScore = calculateMatchScore e query := by
  obtain ⟨v, hv⟩ : ∃ v, calculateMatchScore e query = v := ⟨_, rfl⟩
  rw [hv] at hpos hmax ⊢
  have hse : ScoredProduct.mk e v ∈ scoredCandidates catalog query := by
    unfold scoredCandidates
    rw [List.mem_filter]
    constructor
    · rw [List.mem_map]
      exact ⟨e, he, by rw [hv]⟩
    · simpa using hpos
  have hseS : ScoredProduct.mk e v ∈
      sortByScoreDesc (scoredCandidates catalog query) :=
    (sortByScoreDesc_perm _).symm.subset hse
  cases hS : sortByScoreDesc (scoredCandidates catalog query) with
  | nil => rw [hS] at hseS; simp at hseS
  | cons top rest' =>
    refine ⟨top, rest'.take 14, ?_, ?_⟩
    · unfold rank
      rw [hS]
      rfl
    · have htopS : top ∈ sortByScoreDesc (scoredCandidates catalog query) := by
        rw [hS]; simp
      have htopC : top ∈ scoredCandidates catalog query :=
        (sortByScoreDesc_perm _).subset htopS
      have htople : top.matchScore ≤ v := by
        unfold scoredCandidates at htopC
        rcases List.mem_map.mp (List.mem_filter.mp htopC).1 with ⟨p, hp, hpe⟩
        have h2 : calculateMatchScore p query = top.matchScore :=
          congrArg ScoredProduct.matchScore hpe
        rw [← h2]
        exact hmax p hp
      have hsorted := sortByScoreDesc_sorted (scoredCandidates catalog query)
      rw [hS] at hsorted
      have hge : v ≤ top.matchScore := by
        rw [hS] at hseS
        rcases List.mem_cons.mp hseS with h | h
        · exact le_of_eq (congrArg ScoredProduct.matchScore h)
        · exact (List.pairwise_cons.mp hsorted).1 _ h
      omega

/-- Claim C1 (amended): If some catalog item's normalized title equals the
normalized query, the query has at least one token, and that item's own
title triggers no accessory penalty against the query anchor, then the item
attains the maximal score over the whole catalog, that score is strictly
positive, and the top-ranked candidate carries exactly that score.  (As the
counterexample shows, the claim as stated — the exact item *itself* is the
first candidate — fails: another item can strictly outscore it via the
one-sided accessory penalty; and with equal scores an earlier catalog item
can occupy the first slot.) -/
theorem exact_title_top_score (catalog : List MappedProduct) (query : Str)
    (e : MappedProduct) (he : e ∈ catalog)
    (hexact : normalizeText e.title = normalizeText query)
    (hne : queryTokensOf query ≠ [])
    (hpen : accessoryPenaltyApplies (queryTokensOf query)
      (jsSplitSpace (normalizeText e.title)) = false) :
    0 < calculateMatchScore e query ∧
    (∀ p ∈ catalog,
      calculateMatchScore p query ≤ calculateMatchScore e query) ∧
    ∃ top rest, rank catalog query = top :: rest ∧
      top.matchScore = calculateMatchScore e query := by
  have hval := calculateMatchScore_exact e query hexact hne hpen
  have hsum : 0 ≤ ((queryTokensOf query).map fun t => 10 * tokenWeight t).sum := by
    apply List.sum_nonneg
    intro x hx
    rcases List.mem_map.mp hx with ⟨t, _, ht⟩
    have := tokenWeight_nonneg t
    omega
  have hpos : 0 < calculateMatchScore e query := by rw [hval]; omega
  have hmax : ∀ p ∈ catalog,
      calculateMatchScore p query ≤ calculateMatchScore e query := by
    intro p _
    rw [hval]
    exact calculateMatchScore_le p query
  exact ⟨hpos, hmax, rank_head_of_max catalog query e he hpos hmax⟩

def c1ExactItem : MappedProduct :=
  MappedProduct.mk "prod-3-1700000000000".data "Pinca com Cabo".data
    "A103".data (some 100) "Fornecedor Direto".data

def c1SynonymItem : MappedProduct :=
  MappedProduct.mk "prod-4-1700000000000".data "Pinca com Handle".data
    "A104".data (some 200) "Fornecedor Direto".data

def c1Catalog : List MappedProduct := [c1ExactItem, c1SynonymItem]

/-- Counterexample to **C1** as stated: the catalog holds an item whose
normalized title equals the normalized query, yet the top-ranked candidate
is a different item (its title does not even normalize to the query): the
thesaurus satisfies the completeness gate for "cabo" via "handle", and the
exact item — whose own title contains the accessory word "cabo" that the
anchor "pinca" does not request — loses 3000 (×10) to the accessory
penalty. -/
theorem exact_title_not_top_counterexample :
    c1ExactItem ∈ c1Catalog ∧
    normalizeText c1ExactItem.title = normalizeText "Pinca com Cabo".data ∧
    ((rank c1Catalog "Pinca com Cabo".data).head?.map fun s =>
      s.product.title) = some ("Pinca com Handle".data) ∧
    ¬(normalizeText "Pinca com Handle".data =
      normalizeText "Pinca com Cabo".data) := by
  decide

theorem exact_title_top_score_witness :
    0 < calculateMatchScore sampleVolkmann "Afastador Volkmann 16cm".data ∧
    (∀ p ∈ [sampleVolkmann],
      calculateMatchScore p "Afastador Volkmann 16cm".data ≤
        calculateMatchScore sampleVolkmann "Afastador Volkmann 16cm".data) ∧
    ∃ top rest,
      rank [sampleVolkmann] "Afastador Volkmann 16cm".data = top :: rest ∧
      top.matchScore =
        calculateMatchScore sampleVolkmann "Afastador Volkmann 16cm".data :=
  exact_title_top_score [sampleVolkmann] ("Afastador Volkmann 16cm".data)
    sampleVolkmann (by decide) (by decide) (by decide) (by decide)

theorem rank_shape_witness :
    (rank sampleCatalog ("de com".data)).length ≤ 15 ∧
    List.Pairwise (fun a b => b.matchScore ≤ a.matchScore)
      (rank sampleCatalog ("de com".data)) ∧
    (∀ s ∈ rank sampleCatalog ("de com".data), 0 < s.matchScore) ∧
    ∀ q : ℤ, (rank sampleCatalog ("de com".data)).filter
        (fun s => decide (s.matchScore = q)) <+:
      (scoredCandidates sampleCatalog ("de com".data)).filter
        (fun s => decide (s.matchScore = q)) :=
  rank_shape sampleCatalog ("de com".data)

end Atec
